import Mathlib

/-!
Verification development for the hdc-digest repository.

The Python modules `src/store.py`, `src/digest.py` and `src/trends.py` are
shallowly embedded below.  Python strings are modelled as `List Char`,
Python `int` as `Int`/`Nat`, `None`-able values as `Option`, and functions
that can raise as `Option`/`Except`-valued functions.  Python `float`
arithmetic appears in exactly one relevant spot (`gap_weeks = days / 7`
compared against the integer 4 in `trends.py`); it is modelled with exact
rational arithmetic, which agrees with the float computation on every
reachable input since `n / 7 > 4 ↔ n > 28` for integers `n` of realistic size.
-/

namespace HdcDigest

/-! ### Generic character/string helpers (Python `str` operations) -/

/-- The ASCII whitespace characters stripped by Python `str.strip()`:
space, tab, newline, carriage return, vertical tab, form feed.
(Non-ASCII unicode whitespace is outside the model.) -/
def isPySpace (c : Char) : Bool :=
  c = ' ' || c = '\t' || c = '\n' || c = '\x0d' || c = '\x0b' || c = '\x0c'

/-- Strip characters satisfying `p` from the right end of a list
(Python `str.rstrip`). -/
def rstripBy (p : Char → Bool) (l : List Char) : List Char :=
  (l.reverse.dropWhile p).reverse

/-- Python `s.strip()`: remove whitespace from both ends. -/
def pyStrip (l : List Char) : List Char :=
  rstripBy isPySpace (l.dropWhile isPySpace)

/-- Python `s.rstrip("/")`: remove every trailing `'/'`. -/
def rstripSlash (l : List Char) : List Char :=
  rstripBy (· = '/') l

/-! ### `store.normalize_url` (src/store.py lines 14-31)

```python
def normalize_url(url: str) -> str:
    if not url or not isinstance(url, str):
        return url or ""
    u = url.strip()
    if not u:
        return u
    if len(u) > 1 and u[-1] == "/" and "?" not in u and "#" not in u:
        u = u.rstrip("/")
    elif "?" in u:
        base, qs = u.split("?", 1)
        if len(base) > 1 and base[-1] == "/":
            u = base.rstrip("/") + "?" + qs
    return u
```
-/

/-- `normalize_url` on string inputs. -/
def normalize_url (url : List Char) : List Char :=
  if url = [] then []
  else
    let u := pyStrip url
    if u = [] then u
    else if 1 < u.length ∧ u.getLast? = some '/' ∧ '?' ∉ u ∧ '#' ∉ u then
      rstripSlash u
    else if '?' ∈ u then
      let base := u.takeWhile (· ≠ '?')
      let qs := (u.dropWhile (· ≠ '?')).tail
      if 1 < base.length ∧ base.getLast? = some '/' then
        rstripSlash base ++ '?' :: qs
      else u
    else u

/-- The public interface of `normalize_url` also accepts `None` (and other
falsy non-string values), for which `url or ""` returns the empty string.
`none` models those inputs. -/
def normalize_url_any : Option (List Char) → List Char
  | none => []
  | some s => normalize_url s

/-! ### Data model (src/digest.py dataclasses)

`DigestItem`, `DigestSection` and `DigestResult` mirror the dataclasses of
`src/digest.py`.  `quality` is an optional string-to-string dict, modelled as
an association list.  `duration_seconds` is a Python float that plays no role
in any modelled computation; it is carried as a rational. -/

structure DigestItem where
  title : List Char
  published_date : List Char
  url : List Char
  summary : List Char
  source_type : List Char
  publisher : List Char
  quality : Option (List (List Char × List Char)) := none
deriving DecidableEq

structure DigestSection where
  name : List Char
  query : List Char
  items : List DigestItem
  dropped_items : List DigestItem := []
deriving DecidableEq

structure DigestResult where
  date_utc : List Char
  top_themes : List (List Char)
  sections : List DigestSection
  duration_seconds : ℚ := 0
deriving DecidableEq

/-! ### The Seen-Item Store (src/store.py)

A row of the `items` (or `dropped_items`) table.  SQLite TEXT columns that
may hold NULL are `Option (List Char)`. -/

structure StoredRecord where
  url : List Char
  title : List Char
  published_date : Option (List Char)
  summary : List Char
  source_type : List Char
  publisher : Option (List Char)
  section_name : List Char
  quality_verdict : Option (List Char)
  quality_confidence : Option (List Char)
  quality_reason : Option (List Char)
  quality_json : Option (List Char)
  first_seen_date : List Char
  last_seen_date : List Char
  seen_count : Int
deriving DecidableEq

/-- The two tables written by `save_items`. -/
structure StoreDB where
  items : List StoredRecord
  dropped : List StoredRecord
deriving DecidableEq

/-- Python `x or None` on a string: an empty string becomes NULL. -/
def pyOrNone (l : List Char) : Option (List Char) :=
  if l = [] then none else some l

/-- Python `dict.get` on a string-valued dict (association list). -/
def dictGet (q : List (List Char × List Char)) (k : List Char) :
    Option (List Char) :=
  (q.find? (fun kv => kv.1 = k)).map (·.2)

/-- `json.dumps` on a string-to-string dict with the default separators
(`", "` and `": "`).  String escaping is outside the model (the quality
fields the repository stores contain no quotes or backslashes). -/
def pyDumpsStrDict (q : List (List Char × List Char)) : List Char :=
  '{' :: (List.intercalate (", ".toList)
    (q.map (fun kv => '"' :: kv.1 ++ '"' :: ':' :: ' ' :: '"' :: kv.2 ++ ['"']))) ++ ['}']

/-- Lexicographic (code-point) comparison of strings, as used by SQLite when
comparing TEXT values such as ISO dates. -/
def strLt : List Char → List Char → Bool
  | [], [] => false
  | [], _ :: _ => true
  | _ :: _, [] => false
  | a :: as, b :: bs => a < b || (a = b && strLt as bs)

def strLe (a b : List Char) : Bool := strLt a b || a = b

/-- Stable insertion into a sorted list (used to model Python `sorted` and
SQLite `ORDER BY`, both stable for our purposes). -/
def insertSorted {α : Type} (le : α → α → Bool) (x : α) : List α → List α
  | [] => [x]
  | y :: ys => if le x y then x :: y :: ys else y :: insertSorted le x ys

/-- Stable sort by a total boolean comparison. -/
def sortBy {α : Type} (le : α → α → Bool) : List α → List α
  | [] => []
  | x :: xs => insertSorted le x (sortBy le xs)

/-- The UPDATE arm of the upsert: every descriptive field is overwritten with
the incoming item's values, `last_seen_date` becomes the run date, and
`seen_count` is incremented; `url` and `first_seen_date` are untouched. -/
def updRec (date sec : List Char) (it : DigestItem) (r : StoredRecord) :
    StoredRecord :=
  { r with title := it.title, published_date := pyOrNone it.published_date,
           summary := it.summary, source_type := it.source_type,
           publisher := pyOrNone it.publisher, section_name := sec,
           quality_verdict := it.quality.bind (fun q => dictGet q "verdict".toList),
           quality_confidence := it.quality.bind (fun q => dictGet q "confidence".toList),
           quality_reason := it.quality.bind (fun q => dictGet q "reason".toList),
           quality_json := it.quality.map pyDumpsStrDict,
           last_seen_date := date, seen_count := r.seen_count + 1 }

/-- The INSERT arm of the upsert: a fresh row with `seen_count = 1` and
`first_seen_date = last_seen_date = ` the run date. -/
def freshRec (date sec : List Char) (it : DigestItem) : StoredRecord :=
  { url := normalize_url it.url, title := it.title,
    published_date := pyOrNone it.published_date,
    summary := it.summary, source_type := it.source_type,
    publisher := pyOrNone it.publisher, section_name := sec,
    quality_verdict := it.quality.bind (fun q => dictGet q "verdict".toList),
    quality_confidence := it.quality.bind (fun q => dictGet q "confidence".toList),
    quality_reason := it.quality.bind (fun q => dictGet q "reason".toList),
    quality_json := it.quality.map pyDumpsStrDict,
    first_seen_date := date, last_seen_date := date,
    seen_count := 1 }

/-- One iteration of the per-item loop of `save_items`
(src/store.py lines 182-255 for kept items; the dropped-item loop at lines
257-328 is the same code against the other table): look up the normalized
url and either UPDATE the matching row or INSERT a fresh one. -/
def upsertRec (date sec : List Char) (tbl : List StoredRecord)
    (it : DigestItem) : List StoredRecord :=
  let su := normalize_url it.url
  if tbl.any (fun r => r.url = su) then
    tbl.map (fun r => if r.url = su then updRec date sec it r else r)
  else
    tbl ++ [freshRec date sec it]

/-- `store.save_items` (src/store.py lines 175-328): one transaction that,
section by section, upserts every kept item into `items` and every dropped
item into `dropped_items`. -/
def save_items (digest : DigestResult) (db : StoreDB) : StoreDB :=
  digest.sections.foldl (fun db sec =>
    { items := sec.items.foldl (upsertRec digest.date_utc sec.name) db.items,
      dropped := sec.dropped_items.foldl (upsertRec digest.date_utc sec.name)
        db.dropped }) db

/-! ### Calendar arithmetic (Python `datetime.date`)

Dates are proleptic-Gregorian; `toOrdinal` is `date.toordinal()` with
day 1 = 0001-01-01, the basis of Python's date subtraction. -/

def isLeap (y : ℕ) : Bool := y % 4 = 0 ∧ (¬ y % 100 = 0 ∨ y % 400 = 0)

def daysInMonth (y m : ℕ) : ℕ :=
  if m = 2 then (if isLeap y then 29 else 28)
  else if m = 4 ∨ m = 6 ∨ m = 9 ∨ m = 11 then 30
  else 31

def daysBeforeMonth (y m : ℕ) : ℕ :=
  (List.range (m - 1)).foldl (fun a i => a + daysInMonth y (i + 1)) 0

def toOrdinal (y m d : ℕ) : ℤ :=
  365 * ((y : ℤ) - 1) + ((y : ℤ) - 1) / 4 - ((y : ℤ) - 1) / 100 +
    ((y : ℤ) - 1) / 400 + daysBeforeMonth y m + d

/-- First ordinal of year `y` (`date(y, 1, 1).toordinal()`). -/
def yearStart (y : ℕ) : ℤ := toOrdinal y 1 1

/-- CPython `_isoweek1monday`: the ordinal of the Monday starting ISO week 1
of `year`. -/
def isoweek1monday (year : ℕ) : ℤ :=
  let firstday := yearStart year
  let firstweekday := (firstday + 6) % 7
  let week1monday := firstday - firstweekday
  if 3 < firstweekday then week1monday + 7 else week1monday

/-- CPython `date.isocalendar()` on (y, m, d): ISO (year, week, weekday). -/
def isocalendar (y m d : ℕ) : ℕ × ℕ × ℕ :=
  let today := toOrdinal y m d
  let w1m := isoweek1monday y
  let week := (today - w1m) / 7
  let day := (today - w1m) % 7
  if week < 0 then
    let w1m' := isoweek1monday (y - 1)
    ((y - 1), ((today - w1m') / 7 + 1).toNat, ((today - w1m') % 7 + 1).toNat)
  else if 52 ≤ week ∧ isoweek1monday (y + 1) ≤ today then
    (y + 1, 1, (day + 1).toNat)
  else (y, (week + 1).toNat, (day + 1).toNat)

/-- Inverse of `yearStart`-search: the year containing ordinal `n`
(bounded adjustment around an arithmetic first guess). -/
def findYear : ℕ → ℕ → ℤ → ℕ
  | 0, y, _ => y
  | f + 1, y, n =>
      if yearStart (y + 1) ≤ n then findYear f (y + 1) n
      else if n < yearStart y then findYear f (y - 1) n
      else y

/-- Split a 1-based day-of-year into (month, day). -/
def monthDayAux (y : ℕ) : ℕ → ℕ → ℕ → ℕ × ℕ
  | 0, m, doy => (m, doy)
  | f + 1, m, doy =>
      if doy ≤ daysInMonth y m then (m, doy)
      else monthDayAux y f (m + 1) (doy - daysInMonth y m)

/-- `date.fromordinal`; `none` models the `ValueError` for ordinals < 1. -/
def ordToDate (n : ℤ) : Option (ℕ × ℕ × ℕ) :=
  if n < 1 then none
  else
    let y0 := ((400 * n) / 146097).toNat + 1
    let y := findYear 4 y0 n
    let doy := (n - yearStart y).toNat + 1
    let md := monthDayAux y 11 1 doy
    some (y, md.1, md.2)

/-! ### `datetime.strptime(s, "%Y-%m-%d")` (used by digest.py and trends.py)

CPython compiles the format to the regex
`(?P<Y>\d\d\d\d)-(?P<m>1[0-2]|0[1-9]|[1-9])-(?P<d>3[01]|[12]\d|0[1-9]|[1-9])`,
matches it as a prefix, raises if unconverted data remains, and then raises
from the `datetime` constructor on out-of-range values.  Alternation
backtracking matters only for the month (driven by the following literal
`'-'`); the post-match checks never re-enter the regex, and no input can
make the month backtrack on them since the 1-digit month alternative would
have to be followed by `'-'` where a digit stands. -/

/-- Month pattern `(1[0-2]|0[1-9]|[1-9])` with continuation `k`. -/
def scanMonth (l : List Char) (k : ℕ → List Char → Option (ℕ × ℕ × ℕ)) :
    Option (ℕ × ℕ × ℕ) :=
  (match l with
   | '1' :: c :: rest =>
       if c = '0' ∨ c = '1' ∨ c = '2' then k (10 + (c.toNat - 48)) rest else none
   | _ => none) <|>
  (match l with
   | '0' :: c :: rest =>
       if '1' ≤ c ∧ c ≤ '9' then k (c.toNat - 48) rest else none
   | _ => none) <|>
  (match l with
   | c :: rest => if '1' ≤ c ∧ c ≤ '9' then k (c.toNat - 48) rest else none
   | _ => none)

/-- Day pattern `(3[01]|[12]\d|0[1-9]|[1-9])`: first locally matching
alternative wins (it is the last element of the format). -/
def scanDay : List Char → Option (ℕ × List Char)
  | '3' :: c :: rest =>
      if c = '0' ∨ c = '1' then some (30 + (c.toNat - 48), rest)
      else some (3, c :: rest)
  | c1 :: c2 :: rest =>
      if (c1 = '1' ∨ c1 = '2') ∧ c2.isDigit then
        some ((c1.toNat - 48) * 10 + (c2.toNat - 48), rest)
      else if c1 = '0' ∧ '1' ≤ c2 ∧ c2 ≤ '9' then some (c2.toNat - 48, rest)
      else if '1' ≤ c1 ∧ c1 ≤ '9' then some (c1.toNat - 48, c2 :: rest)
      else none
  | [c] => if '1' ≤ c ∧ c ≤ '9' then some (c.toNat - 48, []) else none
  | [] => none

/-- `datetime.strptime(l, "%Y-%m-%d").date()`; `none` models `ValueError`
(no match, unconverted trailing data, or out-of-range date). -/
def strptimeYMD (l : List Char) : Option (ℕ × ℕ × ℕ) :=
  match l with
  | y1 :: y2 :: y3 :: y4 :: '-' :: rest =>
      if y1.isDigit ∧ y2.isDigit ∧ y3.isDigit ∧ y4.isDigit then
        let y := (((y1.toNat - 48) * 10 + (y2.toNat - 48)) * 10 +
          (y3.toNat - 48)) * 10 + (y4.toNat - 48)
        scanMonth rest (fun m rest2 =>
          match rest2 with
          | '-' :: rest3 =>
              match scanDay rest3 with
              | some (d, rest4) =>
                  if rest4 = [] then
                    if 1 ≤ y ∧ d ≤ daysInMonth y m then some (y, m, d) else none
                  else none
              | none => none
          | _ => none)
      else none
  | _ => none

/-! ### Date filtering (src/digest.py lines 307-329) -/

/-- `digest._parse_date`: strip, reject empty, parse the first 10 chars as
`YYYY-MM-DD`; `None` on any failure.  Non-string inputs (also mapped to
`None` by the code) are modelled by the `none` case. -/
def _parse_date : Option (List Char) → Option (ℕ × ℕ × ℕ)
  | none => none
  | some l =>
      let s := pyStrip l
      if s = [] then none else strptimeYMD (s.take 10)

/-- `digest._is_within_days_back`, with `today` (UTC date at call time) made
an explicit ordinal parameter. -/
def _is_within_days_back (today : ℤ) (published_date_str : Option (List Char))
    (days_back : ℤ) : Bool :=
  if days_back ≤ 0 then true
  else
    match _parse_date published_date_str with
    | none => true
    | some (y, m, d) => decide (today - days_back ≤ toOrdinal y m d)

/-! ### Decimal formatting and parsing helpers -/

def charsToNat (l : List Char) : ℕ :=
  l.foldl (fun a c => 10 * a + (c.toNat - 48)) 0

/-- Base-10 digits, little-endian, by structural recursion on a fuel bound
(equal to `Nat.digits 10` by `digitsAux_eq_digits`). -/
def digitsAux : ℕ → ℕ → List ℕ
  | 0, _ => []
  | f + 1, n => if n = 0 then [] else n % 10 :: digitsAux f (n / 10)

def natToChars (n : ℕ) : List Char :=
  (digitsAux n n).reverse.map (fun d => Char.ofNat (48 + d))

/-- Python `str(n)` / `f"{n}"` for a natural number. -/
def natStr (n : ℕ) : List Char := if n = 0 then ['0'] else natToChars n

/-- `f"{n:02d}"`. -/
def pad2 (n : ℕ) : List Char := if n < 10 then '0' :: natStr n else natStr n

/-- `%Y`-style 4-digit zero-padded year as produced by `date.strftime` /
`date.isoformat()` for the years in scope. -/
def pad4 (n : ℕ) : List Char :=
  List.replicate (4 - (natStr n).length) '0' ++ natStr n

/-- `date(y, m, d).isoformat()`. -/
def isoDate (y m d : ℕ) : List Char :=
  pad4 y ++ '-' :: (pad2 m ++ '-' :: pad2 d)

/-- Python `int(s)` restricted to the digit strings that occur in period
labels (`none` models `ValueError`). -/
def parseIntChars (l : List Char) : Option ℕ :=
  if l ≠ [] ∧ l.all Char.isDigit then some (charsToNat l) else none

/-- Leading-match test: `hasLead pat l` iff `pat` begins `l`. -/
def hasLead : List Char → List Char → Bool
  | [], _ => true
  | _ :: _, [] => false
  | a :: as, b :: bs => a = b && hasLead as bs

/-- Substring test (Python `pat in text`). -/
def hasSub (pat : List Char) : List Char → Bool
  | [] => hasLead pat []
  | l@(_ :: rest) => hasLead pat l || hasSub pat rest

/-- First occurrence split: `subSplit1 sep l = some (before, after)`. -/
def subSplit1 (sep : List Char) : List Char → Option (List Char × List Char)
  | [] => if sep = [] then some ([], []) else none
  | l@(c :: rest) =>
      if hasLead sep l then some ([], l.drop sep.length)
      else (subSplit1 sep rest).map (fun ab => (c :: ab.1, ab.2))

/-- Python `str.split(sep)` (all occurrences), with fuel. -/
def splitSubAux (sep : List Char) : ℕ → List Char → List (List Char)
  | 0, l => [l]
  | f + 1, l =>
      match subSplit1 sep l with
      | some (a, b) => a :: splitSubAux sep f b
      | none => [l]

def splitSub (sep l : List Char) : List (List Char) :=
  splitSubAux sep (l.length + 1) l

/-! ### Trend analysis (src/trends.py) -/

structure TrendDataPoint where
  period : List Char
  date : List Char
  count : ℕ
deriving DecidableEq

def toLowerStr (l : List Char) : List Char := l.map Char.toLower

/-- `trends._calculate_topic_mentions`: how many items mention the topic as a
case-insensitive substring of `title + " " + summary`. -/
def _calculate_topic_mentions (items : List StoredRecord) (topic : List Char) : ℕ :=
  items.countP (fun r =>
    hasSub (toLowerStr topic) (toLowerStr r.title ++ ' ' :: toLowerStr r.summary))

/-- The period label of a stored record for a period granularity
(src/trends.py lines 167-189): ISO `YYYY-Www` for weeks, `YYYY-MM` for
months, `YYYY` for years, and the raw date string for any other
`period_type`; `none` models the `continue` on empty or unparseable dates. -/
def periodOf (ptype : List Char) (r : StoredRecord) : Option (List Char) :=
  if r.first_seen_date = [] then none
  else
    (strptimeYMD r.first_seen_date).map (fun ymd =>
      if ptype = "week".toList then
        let iso := isocalendar ymd.1 ymd.2.1 ymd.2.2
        natStr iso.1 ++ '-' :: 'W' :: pad2 iso.2.1
      else if ptype = "month".toList then pad4 ymd.1 ++ '-' :: pad2 ymd.2.1
      else if ptype = "year".toList then pad4 ymd.1
      else r.first_seen_date)

/-- `trends._get_items_by_time_period`: items with `first_seen_date` in the
inclusive range (TEXT comparison), ordered by `first_seen_date`, grouped by
period label; dict insertion order is first occurrence. -/
def _get_items_by_time_period (db : List StoredRecord)
    (start stop ptype : List Char) :
    List (List Char × List StoredRecord) :=
  let items := sortBy (fun a b => strLe a.first_seen_date b.first_seen_date)
    (db.filter (fun r =>
      strLe start r.first_seen_date && strLe r.first_seen_date stop))
  let keys := (items.filterMap (periodOf ptype)).dedup
  keys.map (fun p => (p, items.filter (fun r => periodOf ptype r = some p)))

/-- CPython `_strptime._calc_julian_from_U_or_W` for `%W` with `%w = 1`
(Monday), composed with the `datetime` constructor into an ordinal; used by
the week branch of the empty-bucket date synthesis. -/
def synthWeekOrd (year week : ℕ) : ℤ :=
  let firstweekday := (yearStart year + 6) % 7
  let week0len := (7 - firstweekday) % 7
  let julian : ℤ :=
    if week = 0 then 1 - firstweekday
    else 1 + week0len + 7 * ((week : ℤ) - 1)
  yearStart year + julian - 1

/-- The representative date synthesized from a period label when a bucket
has no items (src/trends.py lines 229-237); `none` models the exceptions of
`int()` / `strptime` / `date` on malformed labels. -/
def synthDate (ptype period : List Char) : Option (List Char) :=
  if ptype = "week".toList then
    match splitSub "-W".toList period with
    | [a, b] =>
        match parseIntChars a, parseIntChars b with
        | some y, some w =>
            if a.length = 4 ∧ b.length ≤ 2 ∧ w ≤ 53 then
              (ordToDate (synthWeekOrd y w)).map (fun ymd =>
                isoDate ymd.1 ymd.2.1 ymd.2.2)
            else none
        | _, _ => none
    | _ => none
  else if ptype = "month".toList then some (period ++ "-01".toList)
  else some (period ++ "-01-01".toList)

/-- The bucket stored for period `p` (dict lookup, keys are distinct). -/
def bucketLookup (pi : List (List Char × List StoredRecord)) (p : List Char) :
    List StoredRecord :=
  ((pi.find? (fun kv => kv.1 = p)).map (·.2)).getD []

/-- The (period, representative date) pair for one period of the series:
the first item's `first_seen_date` when the bucket is nonempty, otherwise a
date synthesized from the label. -/
def periodDate (pi : List (List Char × List StoredRecord)) (ptype p : List Char) :
    Option (List Char × List Char) :=
  match bucketLookup pi p with
  | r :: _ => some (p, r.first_seen_date)
  | [] => (synthDate ptype p).map (fun ds => (p, ds))

/-- The keys of the dict comprehension `{topic: [] for topic in topics}`:
each distinct topic once, in first-occurrence order (re-assigning an
existing key does not move it). -/
def dedupKeys : List (List Char) → List (List Char)
  | [] => []
  | t :: rest => t :: (dedupKeys rest).filter (fun s => ¬(s = t))

/-- `trends._build_time_series`: the dict `{topic: [] for topic in topics}`
keys the series by each *distinct* topic, but the period loop runs
`for topic in topics:` over the raw list, appending to the shared per-key
list once per occurrence — so for the chronologically sorted period keys, a
topic listed `k` times receives `k` identical `TrendDataPoint`s per period
(one per occurrence, consecutively, since the topic loop is inner and the
period loop outer); `none` models an exception from the date synthesis. -/
def _build_time_series (pi : List (List Char × List StoredRecord))
    (topics : List (List Char)) (ptype : List Char) :
    Option (List (List Char × List TrendDataPoint)) :=
  ((sortBy strLe (pi.map (·.1))).mapM (periodDate pi ptype)).map (fun pds =>
    (dedupKeys topics).map (fun t =>
      (t, pds.flatMap (fun pd =>
        List.replicate (topics.countP (fun s => s = t))
          ⟨pd.1, pd.2, _calculate_topic_mentions (bucketLookup pi pd.1) t⟩))))

/-- `trends._identify_active_topics`, one topic: `some none` models the
`continue` branches (no points / no nonzero mentions), `none` models the
`ValueError` from `strptime` on an unparseable point date, and
`some (some (start, end?))` the computed active window.  Python computes
`gap_weeks = days / 7` as a float and tests `gap_weeks > min_gap_weeks`;
for day counts of calendar magnitude that float test is exact and equal to
the integer test `7 * min_gap_weeks < days` used here (see
`gap_test_exact`), which keeps the model kernel-computable. -/
def identifyOne (minGap : ℤ) (points : List TrendDataPoint) :
    Option (Option (List Char × Option (List Char))) :=
  if points = [] then some none
  else
    let nz := points.filter (fun p => 0 < p.count)
    if nz = [] then some none
    else
      match points.getLast?, nz.head?, nz.getLast? with
      | some lastPt, some firstNz, some lastNz =>
          match strptimeYMD lastPt.date, strptimeYMD lastNz.date with
          | some a, some b =>
              let gapDays : ℤ := toOrdinal a.1 a.2.1 a.2.2 - toOrdinal b.1 b.2.1 b.2.2
              let endD := if 7 * minGap < gapDays then some lastNz.date
                          else none
              some (some (firstNz.date, endD))
          | _, _ => none
      | _, _, _ => some none

/-- `trends._identify_active_topics` over the whole series dict
(default `min_gap_weeks = 4`). -/
def _identify_active_topics
    (ts : List (List Char × List TrendDataPoint)) (minGap : ℤ) :
    Option (List (List Char × (List Char × Option (List Char)))) :=
  match ts with
  | [] => some []
  | (t, ps) :: rest =>
      match identifyOne minGap ps, _identify_active_topics rest minGap with
      | some r, some tail =>
          match r with
          | some e => some ((t, e) :: tail)
          | none => some tail
      | _, _ => none

/-! ### JSON values and the Python `json` module

The salvage parser `_extract_json` leans on `json.loads` and
`JSONDecoder.raw_decode`; both are modelled below.  Model restrictions,
each outside anything the repository's claims exercise: numbers are
integers (a float literal — fraction or exponent part, `NaN`, `Infinity` —
makes the model parser fail where Python would produce a float); a `\\u`
escape denotes a single code point (no surrogate-pair combination); the
CPython recursion limit is not modelled (the fuel below never exhausts on
inputs Python can parse). -/

mutual
inductive Json where
  | null : Json
  | bool (b : Bool) : Json
  | num (n : Int) : Json
  | str (s : List Char) : Json
  | arr (elems : JsonList) : Json
  | obj (fields : JsonFields) : Json
deriving DecidableEq
inductive JsonList where
  | nil : JsonList
  | cons (hd : Json) (tl : JsonList) : JsonList
deriving DecidableEq
inductive JsonFields where
  | nil : JsonFields
  | cons (key : List Char) (val : Json) (tl : JsonFields) : JsonFields
deriving DecidableEq
end

def isJsonWs (c : Char) : Bool := c = ' ' || c = '\t' || c = '\n' || c = '\x0d'

def skipWs (l : List Char) : List Char := l.dropWhile isJsonWs

def hexVal (c : Char) : Option ℕ :=
  if '0' ≤ c ∧ c ≤ '9' then some (c.toNat - 48)
  else if 'a' ≤ c ∧ c ≤ 'f' then some (c.toNat - 87)
  else if 'A' ≤ c ∧ c ≤ 'F' then some (c.toNat - 55)
  else none

/-- `json.scanner.py_scanstring` in strict mode, after the opening quote:
content chars until the closing quote, with the standard escapes; raw
control characters (< 0x20) are rejected. -/
def scanString : List Char → Option (List Char × List Char)
  | [] => none
  | c :: rest =>
      if c = '"' then some ([], rest)
      else if c = '\\' then
        match rest with
        | [] => none
        | e :: rest2 =>
            if e = 'u' then
              match rest2 with
              | h1 :: h2 :: h3 :: h4 :: rest3 =>
                  match hexVal h1, hexVal h2, hexVal h3, hexVal h4 with
                  | some a, some b, some c2, some d =>
                      (scanString rest3).map (fun p =>
                        (Char.ofNat (((a * 16 + b) * 16 + c2) * 16 + d) :: p.1,
                          p.2))
                  | _, _, _, _ => none
              | _ => none
            else
              match
                (if e = '"' then some '"'
                 else if e = '\\' then some '\\'
                 else if e = '/' then some '/'
                 else if e = 'b' then some '\x08'
                 else if e = 'f' then some '\x0c'
                 else if e = 'n' then some '\n'
                 else if e = 'r' then some '\x0d'
                 else if e = 't' then some '\t'
                 else none) with
              | some ch => (scanString rest2).map (fun p => (ch :: p.1, p.2))
              | none => none
      else if c.toNat < 32 then none
      else (scanString rest).map (fun p => (c :: p.1, p.2))

/-- Whether `json`'s NUMBER_RE would extend an integer match with a
fraction or exponent part (making the value a float, outside the model). -/
def expCont : List Char → Bool
  | '+' :: d :: _ => d.isDigit
  | '-' :: d :: _ => d.isDigit
  | d :: _ => d.isDigit
  | [] => false

def floatCont : List Char → Bool
  | '.' :: d :: _ => d.isDigit
  | 'e' :: rest => expCont rest
  | 'E' :: rest => expCont rest
  | _ => false

/-- The integer part `-?(0|[1-9]\d*)` of NUMBER_RE. -/
def intCore : List Char → Option (ℕ × List Char)
  | [] => none
  | c :: rest =>
      if c = '0' then some (0, rest)
      else if '1' ≤ c ∧ c ≤ '9' then
        some (charsToNat (c :: rest.takeWhile Char.isDigit),
          rest.dropWhile Char.isDigit)
      else none

def scanNumber (l : List Char) : Option (Int × List Char) :=
  match l with
  | [] => none
  | c :: rest =>
      if c = '-' then
        match intCore rest with
        | some (n, r) => if floatCont r then none else some (-(n : Int), r)
        | none => none
      else
        match intCore (c :: rest) with
        | some (n, r) => if floatCont r then none else some ((n : Int), r)
        | none => none

/-- Python `dict` update: replace the value at an existing key (first
occurrence keeps its position) or append a new key. -/
def fieldsHasKey : JsonFields → List Char → Bool
  | .nil, _ => false
  | .cons k _ tl, key => k = key || fieldsHasKey tl key

def fieldsSet : JsonFields → List Char → Json → JsonFields
  | .nil, key, v => .cons key v .nil
  | .cons k v0 tl, key, v =>
      if k = key then .cons k v tl else .cons k v0 (fieldsSet tl key v)

/-- Python `dict(pairs)`: insert the parsed pairs left to right. -/
def dictOfPairs (fs : JsonFields) : JsonFields :=
  go .nil fs
where
  go : JsonFields → JsonFields → JsonFields
    | acc, .nil => acc
    | acc, .cons k v tl => go (fieldsSet acc k v) tl

/-! `json.scanner.py_make_scanner._scan_once` and the object/array parsers,
by mutual recursion on a fuel bound of the recursion depth (each unit of
fuel spent consumes at least one input character, so the fuel passed by
`pyRawDecode`/`pyJsonLoads` below never exhausts). -/
mutual
def scanValue : ℕ → List Char → Option (Json × List Char)
  | 0, _ => none
  | fuel + 1, l =>
      match l with
      | [] => none
      | c :: rest =>
          if c = '{' then
            (match skipWs rest with
             | '}' :: r2 => some (Json.obj .nil, r2)
             | '"' :: r2 =>
                 (scanMembers fuel r2).map (fun p =>
                   (Json.obj (dictOfPairs p.1), p.2))
             | _ => none)
          else if c = '[' then
            (match skipWs rest with
             | ']' :: r2 => some (Json.arr .nil, r2)
             | r' => (scanElems fuel r').map (fun p => (Json.arr p.1, p.2)))
          else if c = '"' then (scanString rest).map (fun p => (Json.str p.1, p.2))
          else if hasLead ['t', 'r', 'u', 'e'] l then some (Json.bool true, l.drop 4)
          else if hasLead ['f', 'a', 'l', 's', 'e'] l then
            some (Json.bool false, l.drop 5)
          else if hasLead ['n', 'u', 'l', 'l'] l then some (Json.null, l.drop 4)
          else (scanNumber l).map (fun p => (Json.num p.1, p.2))

/-- Members of an object, positioned just after a key's opening quote. -/
def scanMembers : ℕ → List Char → Option (JsonFields × List Char)
  | 0, _ => none
  | fuel + 1, l =>
      match scanString l with
      | none => none
      | some (key, r1) =>
          match skipWs r1 with
          | ':' :: r3 =>
              match scanValue fuel (skipWs r3) with
              | none => none
              | some (v, r4) =>
                  match skipWs r4 with
                  | ',' :: r6 =>
                      (match skipWs r6 with
                       | '"' :: r8 =>
                           (scanMembers fuel r8).map (fun p =>
                             (JsonFields.cons key v p.1, p.2))
                       | _ => none)
                  | '}' :: r6 => some (JsonFields.cons key v .nil, r6)
                  | _ => none
          | _ => none

/-- Elements of an array, positioned at the first element. -/
def scanElems : ℕ → List Char → Option (JsonList × List Char)
  | 0, _ => none
  | fuel + 1, l =>
      match scanValue fuel l with
      | none => none
      | some (v, r1) =>
          match skipWs r1 with
          | ',' :: r3 =>
              (match scanElems fuel (skipWs r3) with
               | some (vs, r4) => some (JsonList.cons v vs, r4)
               | none => none)
          | ']' :: r3 => some (JsonList.cons v .nil, r3)
          | _ => none
end

/-- Fuel that a parse can never exhaust: at most one unit of fuel is spent
per consumed character, plus a bounded start-up cost per nesting level that
its closing bracket pays for. -/
def jsonFuel (l : List Char) : ℕ := 2 * l.length + 2

/-- `json.JSONDecoder().raw_decode(s)`: a value parsed from the very start
(no leading-whitespace skip), trailing content ignored. -/
def pyRawDecode (l : List Char) : Option Json :=
  (scanValue (jsonFuel l) l).map (·.1)

/-- `json.loads(s)`: whitespace allowed around a value that must consume
the entire input. -/
def pyJsonLoads (l : List Char) : Option Json :=
  match scanValue (jsonFuel l) (skipWs l) with
  | some (j, rest) => if skipWs rest = [] then some j else none
  | none => none

/-- `str(n)` for a Python int. -/
def intToChars (n : Int) : List Char :=
  if n < 0 then '-' :: natStr (-n).toNat else natStr n.toNat

/-! A compact serialization of a JSON value (`json.dumps` with separators
`(",", ":")`; string escaping is not emitted — the roundtrip theorems
restrict strings to characters that need no escaping). -/
mutual
def serialize : Json → List Char
  | .null => "null".toList
  | .bool true => "true".toList
  | .bool false => "false".toList
  | .num n => intToChars n
  | .str s => '"' :: s ++ ['"']
  | .arr es => '[' :: serElems es ++ [']']
  | .obj fs => '{' :: serFields fs ++ ['}']
def serElems : JsonList → List Char
  | .nil => []
  | .cons v .nil => serialize v
  | .cons v (.cons w tl) => serialize v ++ ',' :: serElems (.cons w tl)
def serFields : JsonFields → List Char
  | .nil => []
  | .cons k v .nil => '"' :: k ++ '"' :: ':' :: serialize v
  | .cons k v (.cons k2 v2 tl) =>
      '"' :: k ++ '"' :: ':' :: serialize v ++ ',' :: serFields (.cons k2 v2 tl)
end

/-- Characters that may appear in a string of a "clean" value: printable,
no quote, no backslash, and no braces (braces inside strings defeat the
salvage parser's brace matching — see the C4 counterexample). -/
def cleanChar (c : Char) : Bool :=
  32 ≤ c.toNat && c ≠ '"' && c ≠ '\\' && c ≠ '{' && c ≠ '}'

def cleanStr (s : List Char) : Bool := s.all cleanChar

mutual
def cleanVal : Json → Bool
  | .null => true
  | .bool _ => true
  | .num _ => true
  | .str s => cleanStr s
  | .arr es => cleanList es
  | .obj fs => cleanFields fs
def cleanList : JsonList → Bool
  | .nil => true
  | .cons v tl => cleanVal v && cleanList tl
def cleanFields : JsonFields → Bool
  | .nil => true
  | .cons k v tl =>
      cleanStr k && !(fieldsHasKey tl k) && cleanVal v && cleanFields tl
end

/-! Fuel cost bound of parsing a serialized value. -/
mutual
def sizeV : Json → ℕ
  | .null => 1
  | .bool _ => 1
  | .num _ => 1
  | .str _ => 1
  | .arr es => 1 + sizeL es
  | .obj fs => 1 + sizeF fs
def sizeL : JsonList → ℕ
  | .nil => 0
  | .cons v tl => 1 + sizeV v + sizeL tl
def sizeF : JsonFields → ℕ
  | .nil => 0
  | .cons _ v tl => 1 + sizeV v + sizeF tl
end

/-! ### `digest._extract_json` (src/digest.py lines 113-300)

The salvage chain, strategy by strategy, over the stripped text. -/

/-- Strategy 3: truncate to the last `'}'` (`text[:text.rfind('}') + 1]`);
`none` when the text has no `'}'`. -/
def takeToLastBrace (l : List Char) : Option (List Char) :=
  if l.reverse.dropWhile (· ≠ '}') = [] then none
  else some (l.reverse.dropWhile (· ≠ '}')).reverse

/-- Python regex `\s` on ASCII text (unicode whitespace outside model). -/
def isReWs (c : Char) : Bool :=
  c = ' ' || c = '\t' || c = '\n' || c = '\x0d' || c = '\x0b' || c = '\x0c'

def skipReWs (l : List Char) : List Char := l.dropWhile isReWs

/-- The fence-open pattern `` ```(?:json)?\s*\{ `` matched at the head of
`l`; on success returns the suffix starting at the `'{'` (Python's
`match.end() - 1`) and the suffix after it (`match.end()`, where
non-overlapping `finditer` resumes). -/
def fenceOpenAt (l : List Char) : Option (List Char × List Char) :=
  if hasLead "```".toList l then
    let l3 := l.drop 3
    (if hasLead "json".toList l3 then
      (match skipReWs (l3.drop 4) with
       | '{' :: r => some ('{' :: r, r)
       | _ => none)
     else none) <|>
    (match skipReWs l3 with
     | '{' :: r => some ('{' :: r, r)
     | _ => none)
  else none

/-- `re.finditer` of the fence-open pattern: leftmost, non-overlapping. -/
def fenceMatches : ℕ → List Char → List (List Char)
  | 0, _ => []
  | _ + 1, [] => []
  | f + 1, l@(_ :: rest) =>
      match fenceOpenAt l with
      | some (atBrace, afterBrace) => atBrace :: fenceMatches f afterBrace
      | none => fenceMatches f rest

/-- After a fence-open's `'{'`: is there a `'}'` followed by `\s*` and a
closing fence?  (The `.*?` of the block pattern is DOTALL.) -/
def closeFenceScan : List Char → Bool
  | [] => false
  | c :: tl =>
      (c = '}' && hasLead "```".toList (skipReWs tl)) || closeFenceScan tl

/-- Truthiness of `re.findall(r'```(?:json)?\s*(\{.*?\})\s*```', text,
re.DOTALL)` — the strategy-4 gate. -/
def fencedBlockExists : List Char → Bool
  | [] => false
  | l@(_ :: rest) =>
      (match fenceOpenAt l with
       | some (_, afterBrace) => closeFenceScan afterBrace
       | none => false) || fencedBlockExists rest

/-- The brace-counting loop (src/digest.py lines 152-167 and 173-181):
scan forward counting `'{'`/`'}'`, return the slice ending where the count
first returns to zero on a `'}'`. -/
def braceSliceAux : ℕ → List Char → ℤ → List Char → Option (List Char)
  | 0, _, _, _ => none
  | _ + 1, _, _, [] => none
  | f + 1, acc, n, c :: rest =>
      if c = '{' then braceSliceAux f (c :: acc) (n + 1) rest
      else if c = '}' then
        if n - 1 = 0 then some (c :: acc).reverse
        else braceSliceAux f (c :: acc) (n - 1) rest
      else braceSliceAux f (c :: acc) n rest

def braceSlice (l : List Char) : Option (List Char) :=
  braceSliceAux (l.length + 1) [] 0 l

/-- Strategy 4 body: for each fence match in order, brace-match from its
`'{'` and `json.loads` the slice; a parse failure moves on to the next
fence match (the `break` out of the inner `while`). -/
def tryFenced : List (List Char) → Option Json
  | [] => none
  | m :: ms =>
      match braceSlice m with
      | some js =>
          (match pyJsonLoads js with
           | some j => some j
           | none => tryFenced ms)
      | none => tryFenced ms

/-- The best-effort quote-escaping repair (src/digest.py lines 207-238):
char-by-char with `in_string`/`escape_next` state; a `'"'` inside a string
closes it only when the next non-whitespace char is `,`/`:`/`}`/`]`,
otherwise it is escaped in place (state unchanged). -/
def fixQuotesAux : List Char → Bool → Bool → List Char
  | [], _, _ => []
  | c :: rest, inStr, escNext =>
      if escNext then c :: fixQuotesAux rest inStr false
      else if c = '\\' && inStr then c :: fixQuotesAux rest inStr true
      else if c = '"' then
        if inStr then
          match rest.dropWhile isPySpace with
          | p :: _ =>
              if p = ',' || p = ':' || p = '}' || p = ']' then
                c :: fixQuotesAux rest false false
              else '\\' :: '"' :: fixQuotesAux rest inStr false
          | [] => '\\' :: '"' :: fixQuotesAux rest inStr false
        else c :: fixQuotesAux rest true false
      else c :: fixQuotesAux rest inStr false

def fixQuotes (l : List Char) : List Char := fixQuotesAux l false false

/-- Progressive trailing trim (src/digest.py lines 249-258): for
`k = 1 .. min(50, len) - 1`, right-strip `json_str[:-k]` and `loads` it if
it still ends in `'}'`. -/
def progTrim (js : List Char) : Option Json :=
  (List.range' 1 (min 50 js.length - 1)).findSome? (fun k =>
    let shorter := rstripBy isPySpace (js.take (js.length - k))
    if shorter.getLast? = some '}' then pyJsonLoads shorter else none)

/-- Index of the first occurrence of `pat` (Python `str.find`). -/
def subIdx (pat : List Char) : List Char → Option ℕ
  | [] => if hasLead pat [] then some 0 else none
  | l@(_ :: rest) =>
      if hasLead pat l then some 0
      else (subIdx pat rest).map (· + 1)

/-- Python `s.find(ch, start)`. -/
def charIdxFrom (ch : Char) (start : ℕ) (l : List Char) : Option ℕ :=
  (subIdx [ch] (l.drop start)).map (start + ·)

/-- The bracket-depth loop of the items-array truncation
(src/digest.py lines 264-272): index just before the loop's exit position
when the depth returns to 0. -/
def bracketScan : ℤ → ℕ → List Char → Option ℕ
  | depth, i, [] => if depth = 0 then some (i - 1) else none
  | depth, i, c :: rest =>
      if depth ≤ 0 then (if depth = 0 then some (i - 1) else none)
      else bracketScan
        (if c = '[' then depth + 1 else if c = ']' then depth - 1 else depth)
        (i + 1) rest

/-- Strategy 5's last resort inside the brace-matching branch
(src/digest.py lines 259-280): truncate after the `"items"` array and
re-close the object. -/
def itemsTrunc (js : List Char) : Option Json :=
  match subIdx "\x22items\x22:".toList js with
  | none => none
  | some istart =>
      match charIdxFrom '[' istart js with
      | none => none
      | some bopen =>
          match bracketScan 1 (bopen + 1) (js.drop (bopen + 1)) with
          | none => none
          | some endItems => pyJsonLoads (js.take (endItems + 1) ++ ['}'])

/-- Strategy 5 (src/digest.py lines 169-281): global brace matching from
the first `'{'`, then `raw_decode`, `loads`, the quote repair, the
progressive trim and the items truncation, in that order. -/
def globalBrace (text : List Char) : Option Json :=
  match text.dropWhile (· ≠ '{') with
  | [] => none
  | l =>
      match braceSlice l with
      | none => none
      | some slice =>
          let js := pyStrip slice
          match pyRawDecode js with
          | some j => some j
          | none =>
              match pyJsonLoads js with
              | some j => some j
              | none =>
                  match pyJsonLoads (fixQuotes js) with
                  | some j => some j
                  | none =>
                      match progTrim js with
                      | some j => some j
                      | none => itemsTrunc js

/-- The depth-at-most-2 brace blocks of the last-resort pattern
`\{[^{}]*(?:\{[^{}]*\}[^{}]*)*\}` — deterministic because `[^{}]`
cannot cross a brace. -/
def b2Loop : ℕ → List Char → List Char → Option (List Char × List Char)
  | 0, _, _ => none
  | f + 1, acc, r =>
      match r with
      | '{' :: r2 =>
          let s1 := r2.span (fun c => ¬(c = '{' ∨ c = '}'))
          (match s1.2 with
           | '}' :: r4 =>
               let s2 := r4.span (fun c => ¬(c = '{' ∨ c = '}'))
               b2Loop f (acc ++ '{' :: s1.1 ++ '}' :: s2.1) s2.2
           | _ => none)
      | '}' :: r2 => some (acc ++ ['}'], r2)
      | _ => none

/-- `re.findall` of the last-resort pattern: leftmost, non-overlapping. -/
def b2All : ℕ → List Char → List (List Char)
  | 0, _ => []
  | _ + 1, [] => []
  | f + 1, l@(c :: rest) =>
      if c = '{' then
        let s1 := rest.span (fun ch => ¬(ch = '{' ∨ ch = '}'))
        match b2Loop (l.length + 1) ('{' :: s1.1) s1.2 with
        | some (m, after) => m :: b2All f after
        | none => b2All f rest
      else b2All f rest

/-- Strategy 6: `loads` each candidate until one parses. -/
def tryB2 : List (List Char) → Option Json
  | [] => none
  | m :: ms =>
      match pyJsonLoads m with
      | some j => some j
      | none => tryB2 ms

/-- The whole salvage chain over the stripped text, in source order:
direct parse, `raw_decode`, last-brace truncation, fenced code blocks,
global brace matching with its repair cascade, and the last-resort regex
scan. -/
def tryStrategies (text : List Char) : Option Json :=
  match pyJsonLoads text with
  | some j => some j
  | none =>
  match pyRawDecode text with
  | some j => some j
  | none =>
  match (takeToLastBrace text).bind pyJsonLoads with
  | some j => some j
  | none =>
  match (if fencedBlockExists text then
          tryFenced (fenceMatches (text.length + 1) text)
         else none) with
  | some j => some j
  | none =>
  match globalBrace text with
  | some j => some j
  | none => tryB2 (b2All (text.length + 1) text)

def extractErrMsg : List Char :=
  "Could not extract valid JSON from agent output. First 500 chars: ".toList

/-- `digest._extract_json`: the salvage chain on the stripped text, or the
`ValueError` whose message carries the first 500 characters of the
original (unstripped) text. -/
def _extract_json (text : List Char) : Except (List Char) Json :=
  match tryStrategies (pyStrip text) with
  | some j => .ok j
  | none => .error (extractErrMsg ++ text.take 500)

/-! ### Auxiliary notions for the fenced-extraction analysis (C4)

`btick` is the backtick character of the code fences. -/

def btick : Char := Char.ofNat 96

def fence3 : List Char := [btick, btick, btick]

/-- The characters of the fence tag `json`. -/
def jsonTag : List Char := ['j', 's', 'o', 'n']

/-- The characters at which `_scan_once` can begin a JSON value. -/
def jsonStartChar (c : Char) : Bool :=
  c = '{' || c = '[' || c = '"' || c = 't' || c = 'f' || c = 'n' ||
    c = '-' || c.isDigit

/-- A continuation that cannot extend a serialized number match: it starts
with neither a digit nor a fraction/exponent part. -/
def numSafe (l : List Char) : Bool :=
  !floatCont l &&
    (match l with
     | [] => true
     | c :: _ => !c.isDigit)

/-- The members of a nonempty serialized object, starting just after the
opening quote of the first key — the position at which `scanMembers` runs
(`serFields_eq_serMembers` below relates it to `serFields`). -/
def serMembers : JsonFields → List Char
  | .nil => []
  | .cons k v .nil => k ++ '"' :: ':' :: serialize v
  | .cons k v (.cons k2 v2 tl) =>
      k ++ '"' :: ':' :: serialize v ++
        ',' :: '"' :: serMembers (.cons k2 v2 tl)

/-- Concatenation of field lists (to state what `dict(pairs)` does when
all keys are distinct). -/
def fAppend : JsonFields → JsonFields → JsonFields
  | .nil, gs => gs
  | .cons k v tl, gs => .cons k v (fAppend tl gs)

/-- Text without braces (no `'{'` and no `'}'`). -/
def braceFree (l : List Char) : Bool :=
  l.all (fun c => !(c == '{') && !(c == '}'))

/-- Prose that can precede a fenced block without engaging an earlier
salvage strategy: no backticks, and its first non-whitespace character (if
any) cannot begin a JSON value. -/
def proseOk (P : List Char) : Bool :=
  P.all (fun c => !(c == btick)) &&
    (match P.dropWhile isPySpace with
     | [] => true
     | c :: _ => !jsonStartChar c)

/-! ## Supporting lemmas: string stripping -/

theorem dropWhile_eq_self_of (p : Char → Bool) (l : List Char)
    (h : ∀ c ∈ l, p c = false) : l.dropWhile p = l := by
  induction l with
  | nil => rfl
  | cons a t ih =>
      have ha := h a (by simp)
      simp [List.dropWhile, ha]

theorem rstripBy_eq_self (p : Char → Bool) (l : List Char)
    (h : ∀ c ∈ l, p c = false) : rstripBy p l = l := by
  unfold rstripBy
  rw [dropWhile_eq_self_of p l.reverse (fun c hc => h c (List.mem_reverse.mp hc))]
  exact l.reverse_reverse

theorem pyStrip_eq_self (l : List Char)
    (h : ∀ c ∈ l, isPySpace c = false) : pyStrip l = l := by
  unfold pyStrip
  rw [dropWhile_eq_self_of _ l h, rstripBy_eq_self _ l h]

theorem rstripBy_sublist (p : Char → Bool) (l : List Char) :
    (rstripBy p l).Sublist l := by
  have h := (List.dropWhile_sublist (l := l.reverse) (p := p)).reverse
  rw [List.reverse_reverse] at h
  exact h

theorem mem_rstripBy (p : Char → Bool) (l : List Char) {c : Char}
    (h : c ∈ rstripBy p l) : c ∈ l :=
  (rstripBy_sublist p l).mem h

theorem head?_dropWhile_not (p : Char → Bool) (l : List Char) {c : Char}
    (h : (l.dropWhile p).head? = some c) : p c = false := by
  induction l with
  | nil => simp [List.dropWhile] at h
  | cons a t ih =>
      by_cases hp : p a
      · exact ih (by simpa [List.dropWhile, hp] using h)
      · simp [List.dropWhile, hp] at h
        subst h
        simpa using hp

theorem rstripBy_getLast?_not (p : Char → Bool) (l : List Char) {c : Char}
    (h : (rstripBy p l).getLast? = some c) : p c = false := by
  unfold rstripBy at h
  rw [List.getLast?_reverse] at h
  exact head?_dropWhile_not p l.reverse h

/-- A list splits as its `rstripBy`-remainder followed by a run of
characters all satisfying `p`. -/
theorem rstripBy_append (p : Char → Bool) (l : List Char) :
    ∃ t, l = rstripBy p l ++ t ∧ ∀ c ∈ t, p c = true := by
  refine ⟨(l.reverse.takeWhile p).reverse, ?_, ?_⟩
  · conv_lhs => rw [← l.reverse_reverse, ← List.takeWhile_append_dropWhile p l.reverse]
    rw [List.reverse_append]
    rfl
  · intro c hc
    exact List.mem_takeWhile_imp (List.mem_reverse.mp hc)

theorem rstripSlash_append (l : List Char) :
    ∃ k, l = rstripSlash l ++ List.replicate k '/' := by
  obtain ⟨t, hsplit, hall⟩ := rstripBy_append (· = '/') l
  refine ⟨t.length, ?_⟩
  conv_lhs => rw [hsplit]
  congr 1
  exact List.eq_replicate_of_mem (fun b hb => by simpa using hall b hb)

theorem rstripSlash_getLast?_ne (l : List Char) {c : Char}
    (h : (rstripSlash l).getLast? = some c) : c ≠ '/' := by
  have := rstripBy_getLast?_not (· = '/') l h
  simpa using this

theorem takeWhile_append_of_all (p : Char → Bool) (xs : List Char) (y : Char)
    (ys : List Char) (hall : ∀ x ∈ xs, p x = true) (hy : p y = false) :
    (xs ++ y :: ys).takeWhile p = xs := by
  rw [List.takeWhile_append]
  rw [if_pos (by rw [List.takeWhile_eq_self_iff.mpr hall])]
  simp [List.takeWhile, hy]

theorem dropWhile_append_of_all (p : Char → Bool) (xs : List Char) (y : Char)
    (ys : List Char) (hall : ∀ x ∈ xs, p x = true) (hy : p y = false) :
    (xs ++ y :: ys).dropWhile p = y :: ys := by
  rw [List.dropWhile_append]
  rw [if_pos (by simp [List.dropWhile_eq_nil_iff.mpr hall])]
  simp [List.dropWhile, hy]

/-- Unfold `normalize_url` on a nonempty, already-stripped input. -/
theorem normalize_url_eq (v : List Char) (hv : pyStrip v = v) (hne : v ≠ []) :
    normalize_url v =
      (if 1 < v.length ∧ v.getLast? = some '/' ∧ '?' ∉ v ∧ '#' ∉ v then
        rstripSlash v
      else if '?' ∈ v then
        (if 1 < (v.takeWhile (· ≠ '?')).length ∧
             (v.takeWhile (· ≠ '?')).getLast? = some '/' then
          rstripSlash (v.takeWhile (· ≠ '?')) ++ '?' :: (v.dropWhile (· ≠ '?')).tail
        else v)
      else v) := by
  unfold normalize_url
  rw [if_neg hne]
  simp only [hv, if_neg hne]

/-- Inputs on which `normalize_url` is a no-op. -/
theorem normalize_url_fixed (v : List Char) (hv : pyStrip v = v)
    (hA : ¬(1 < v.length ∧ v.getLast? = some '/' ∧ '?' ∉ v ∧ '#' ∉ v))
    (hB : '?' ∈ v → ¬(1 < (v.takeWhile (· ≠ '?')).length ∧
            (v.takeWhile (· ≠ '?')).getLast? = some '/')) :
    normalize_url v = v := by
  by_cases hne : v = []
  · simp [normalize_url, hne]
  rw [normalize_url_eq v hv hne, if_neg hA]
  by_cases hq : '?' ∈ v
  · rw [if_pos hq, if_neg (hB hq)]
  · rw [if_neg hq]

theorem isPySpace_false_of_mem_rstripSlash {l : List Char} {c : Char}
    (h : ∀ c ∈ l, isPySpace c = false) (hc : c ∈ rstripSlash l) :
    isPySpace c = false :=
  h c (mem_rstripBy _ l hc)

/-! ## Claim theorems: the Identity Normalizer (C2, C3, C9) -/

/-- C2, counterexample.  `normalize_url` is *not* idempotent on all strings:
on `"a /"` the first pass strips the trailing slash and exposes a trailing
space, which the second pass then strips. -/
theorem normalize_url_not_idempotent :
    normalize_url (normalize_url ['a', ' ', '/']) ≠ normalize_url ['a', ' ', '/'] := by
  decide

/-- C2, amended.  `normalize_url` is idempotent on every string containing no
whitespace characters (in particular on every already-canonical URL with no
whitespace); full idempotence fails only when stripping trailing slashes
exposes trailing whitespace. -/
theorem normalize_url_idempotent_on_spaceless (u : List Char)
    (h : ∀ c ∈ u, isPySpace c = false) :
    normalize_url (normalize_url u) = normalize_url u := by
  by_cases hu : u = []
  · simp [normalize_url, hu]
  have hs : pyStrip u = u := pyStrip_eq_self u h
  rw [normalize_url_eq u hs hu]
  by_cases hA : 1 < u.length ∧ u.getLast? = some '/' ∧ '?' ∉ u ∧ '#' ∉ u
  · rw [if_pos hA]
    -- first pass strips all trailing slashes
    set v := rstripSlash u with hvdef
    have hvmem : ∀ c ∈ v, c ∈ u := fun c hc => mem_rstripBy _ u hc
    have hvws : ∀ c ∈ v, isPySpace c = false := fun c hc => h c (hvmem c hc)
    refine normalize_url_fixed v (pyStrip_eq_self v hvws) ?_ ?_
    · rintro ⟨-, hlast, -, -⟩
      exact rstripSlash_getLast?_ne u hlast rfl
    · intro hq
      exact absurd (hvmem '?' hq) hA.2.2.1
  · rw [if_neg hA]
    by_cases hq : '?' ∈ u
    · rw [if_pos hq]
      set base := u.takeWhile (· ≠ '?') with hbase
      set qs := (u.dropWhile (· ≠ '?')).tail with hqs
      by_cases hic : 1 < base.length ∧ base.getLast? = some '/'
      · rw [if_pos hic]
        set v := rstripSlash base ++ '?' :: qs with hvdef
        have hbmem : ∀ c ∈ base, c ∈ u := fun c hc =>
          (List.takeWhile_sublist _).mem hc
        have hqsmem : ∀ c ∈ qs, c ∈ u := fun c hc =>
          (List.dropWhile_sublist _).mem ((List.tail_sublist _).mem hc)
        have hvws : ∀ c ∈ v, isPySpace c = false := by
          intro c hc
          rcases List.mem_append.mp hc with hc | hc
          · exact h c (hbmem c (mem_rstripBy _ base hc))
          · rcases List.mem_cons.mp hc with rfl | hc
            · decide
            · exact h c (hqsmem c hc)
        have hbq : ∀ x ∈ rstripSlash base, (x ≠ '?' : Bool) = true := by
          intro x hx
          have := List.mem_takeWhile_imp (l := u) (hbase ▸ mem_rstripBy _ base hx)
          simpa using this
        refine normalize_url_fixed v (pyStrip_eq_self v hvws) ?_ ?_
        · rintro ⟨-, -, hq', -⟩
          exact hq' (List.mem_append.mpr (Or.inr (List.mem_cons_self _ _)))
        · intro hq'
          have htw : v.takeWhile (· ≠ '?') = rstripSlash base :=
            takeWhile_append_of_all _ _ '?' qs hbq (by simp)
          rw [htw]
          rintro ⟨hlen, hlast⟩
          exact rstripSlash_getLast?_ne base hlast rfl
      · rw [if_neg hic]
        refine normalize_url_fixed u hs hA ?_
        intro _
        exact hic
    · rw [if_neg hq]
      refine normalize_url_fixed u hs hA (fun hq' => absurd hq' hq)

/-- C2 witness: idempotence at a concrete whitespace-free URL. -/
theorem normalize_url_idempotent_witness :
    normalize_url (normalize_url ("http://x.com/a/".toList)) =
      normalize_url ("http://x.com/a/".toList) :=
  normalize_url_idempotent_on_spaceless _ (by decide)

/-- C3, counterexample.  On a URL ending in two slashes `normalize_url`
strips *both* (Python `rstrip("/")`), not exactly one: `"x//" ↦ "x"`,
whereas the claim mandates `"x/"`. -/
theorem normalize_url_strips_run_counterexample :
    normalize_url ['x', '/', '/'] = ['x'] ∧ ['x'] ≠ ['x', '/'] := by
  constructor
  · decide
  · decide

/-- C3, amended.  After trimming, a URL with no query and no fragment whose
length exceeds 1 and which ends in a slash has its *entire* run of trailing
slashes removed (the result no longer ends in `'/'`); with a query present,
the entire run of trailing slashes of the path portion before `'?'` is
removed, with the query left intact. -/
theorem normalize_url_strips_trailing_run :
    (∀ url : List Char, 1 < (pyStrip url).length →
      (pyStrip url).getLast? = some '/' →
      '?' ∉ pyStrip url → '#' ∉ pyStrip url →
      ∃ k, 1 ≤ k ∧ pyStrip url = normalize_url url ++ List.replicate k '/' ∧
        ∀ c, (normalize_url url).getLast? = some c → c ≠ '/')
    ∧ (∀ url : List Char, '?' ∈ pyStrip url →
        1 < ((pyStrip url).takeWhile (· ≠ '?')).length →
        ((pyStrip url).takeWhile (· ≠ '?')).getLast? = some '/' →
        ∃ stripped k, 1 ≤ k ∧
          (pyStrip url).takeWhile (· ≠ '?') = stripped ++ List.replicate k '/' ∧
          normalize_url url =
            stripped ++ '?' :: ((pyStrip url).dropWhile (· ≠ '?')).tail ∧
          ∀ c, stripped.getLast? = some c → c ≠ '/') := by
  constructor
  · intro url hlen hlast hq hh
    have hne : url ≠ [] := by
      rintro rfl
      simp [pyStrip, rstripBy] at hlen
    have hsne : pyStrip url ≠ [] := by
      intro h0
      rw [h0] at hlen
      simp at hlen
    have heq : normalize_url url = rstripSlash (pyStrip url) := by
      unfold normalize_url
      rw [if_neg hne, if_neg hsne, if_pos ⟨hlen, hlast, hq, hh⟩]
    obtain ⟨k, hk⟩ := rstripSlash_append (pyStrip url)
    refine ⟨k, ?_, by rw [heq]; exact hk, fun c hc => rstripSlash_getLast?_ne _ (heq ▸ hc)⟩
    -- k ≥ 1 because the stripped string ends in '/'
    rcases Nat.eq_zero_or_pos k with rfl | hpos
    · exfalso
      rw [List.replicate_zero, List.append_nil] at hk
      have := rstripSlash_getLast?_ne (pyStrip url) (c := '/') (by rw [← hk]; exact hlast)
      exact this rfl
    · exact hpos
  · intro url hq hblen hblast
    have hne : url ≠ [] := by
      rintro rfl
      simp [pyStrip, rstripBy] at hq
    have hsne : pyStrip url ≠ [] := by
      intro h0
      rw [h0] at hq
      simp at hq
    have hA : ¬(1 < (pyStrip url).length ∧ (pyStrip url).getLast? = some '/' ∧
        '?' ∉ pyStrip url ∧ '#' ∉ pyStrip url) := by
      rintro ⟨-, -, hq', -⟩
      exact hq' hq
    have heq : normalize_url url =
        rstripSlash ((pyStrip url).takeWhile (· ≠ '?')) ++
          '?' :: ((pyStrip url).dropWhile (· ≠ '?')).tail := by
      unfold normalize_url
      rw [if_neg hne, if_neg hsne, if_neg hA, if_pos hq, if_pos ⟨hblen, hblast⟩]
    obtain ⟨k, hk⟩ := rstripSlash_append ((pyStrip url).takeWhile (· ≠ '?'))
    refine ⟨rstripSlash ((pyStrip url).takeWhile (· ≠ '?')), k, ?_, hk, heq,
      fun c hc => rstripSlash_getLast?_ne _ hc⟩
    rcases Nat.eq_zero_or_pos k with rfl | hpos
    · exfalso
      rw [List.replicate_zero, List.append_nil] at hk
      have := rstripSlash_getLast?_ne ((pyStrip url).takeWhile (· ≠ '?')) (c := '/')
        (by rw [← hk]; exact hblast)
      exact this rfl
    · exact hpos

/-- C3 witness: both parts of the amended statement at concrete URLs. -/
theorem normalize_url_strips_trailing_run_witness :
    (∃ k, 1 ≤ k ∧ pyStrip "/a//".toList =
        normalize_url "/a//".toList ++ List.replicate k '/' ∧
        ∀ c, (normalize_url "/a//".toList).getLast? = some c → c ≠ '/')
    ∧ (∃ stripped k, 1 ≤ k ∧
        (pyStrip "ab//?q/".toList).takeWhile (· ≠ '?') =
          stripped ++ List.replicate k '/' ∧
        normalize_url "ab//?q/".toList =
          stripped ++ '?' :: ((pyStrip "ab//?q/".toList).dropWhile (· ≠ '?')).tail ∧
        ∀ c, stripped.getLast? = some c → c ≠ '/') :=
  ⟨normalize_url_strips_trailing_run.1 "/a//".toList (by decide) (by decide)
      (by decide) (by decide),
   normalize_url_strips_trailing_run.2 "ab//?q/".toList (by decide) (by decide)
      (by decide)⟩

/-- C9 (confirmed).  `normalize_url` is total at its public interface and
never fails: `None` (and other falsy inputs, modelled by `none`), the empty
string, and whitespace-only strings all map to the empty string. -/
theorem normalize_url_total_on_empty :
    normalize_url_any none = [] ∧ normalize_url [] = [] ∧
    ∀ l : List Char, (∀ c ∈ l, isPySpace c = true) → normalize_url l = [] := by
  refine ⟨rfl, by decide, fun l hl => ?_⟩
  by_cases hne : l = []
  · simp [normalize_url, hne]
  have hstrip : pyStrip l = [] := by
    unfold pyStrip
    rw [List.dropWhile_eq_nil_iff.mpr hl]
    rfl
  unfold normalize_url
  rw [if_neg hne]
  simp [hstrip]

/-- C9 witness: whitespace-only input at a concrete value. -/
theorem normalize_url_total_on_empty_witness :
    normalize_url [' ', '\t'] = [] :=
  normalize_url_total_on_empty.2.2 [' ', '\t'] (by decide)

/-! ## Supporting lemmas: the store upsert -/

theorem updRec_url (d s : List Char) (it : DigestItem) (r : StoredRecord) :
    (updRec d s it r).url = r.url := rfl

theorem strLe_refl (a : List Char) : strLe a a = true := by
  simp [strLe]

/-- The urls of a table are unchanged by the UPDATE arm's map. -/
theorem upsert_map_urls (d s : List Char) (it : DigestItem)
    (tbl : List StoredRecord) (su : List Char) :
    (tbl.map (fun r => if r.url = su then updRec d s it r else r)).map (·.url) =
      tbl.map (·.url) := by
  rw [List.map_map]
  exact List.map_congr_left (fun r _ => by by_cases h : r.url = su <;> simp [h, updRec_url])

/-- A single upsert, seen from a record already present in the table:
the record's row keeps its url and `first_seen_date`, its `seen_count`
grows by 1 exactly when the incoming item has the same canonical url, and
url-uniqueness of the table is preserved. -/
theorem upsert_step (d s : List Char) (it : DigestItem)
    (tbl : List StoredRecord) (u : List Char) (r0 : StoredRecord)
    (huniq : (tbl.map (·.url)).Nodup) (hmem : r0 ∈ tbl) (hurl : r0.url = u) :
    ∃ r1 ∈ upsertRec d s tbl it, r1.url = u ∧
      r1.seen_count = r0.seen_count +
        (if normalize_url it.url = u then 1 else 0) ∧
      r1.first_seen_date = r0.first_seen_date ∧
      ((upsertRec d s tbl it).map (·.url)).Nodup := by
  unfold upsertRec
  by_cases hmatch : normalize_url it.url = u
  · have hany : tbl.any (fun r => r.url = normalize_url it.url) = true :=
      List.any_eq_true.mpr ⟨r0, hmem, by simp [hurl, hmatch]⟩
    rw [if_pos hany]
    refine ⟨updRec d s it r0, ?_, by rw [updRec_url, hurl],
      by simp [updRec, hmatch], rfl, ?_⟩
    · refine List.mem_map.mpr ⟨r0, hmem, ?_⟩
      show (if r0.url = normalize_url it.url then updRec d s it r0 else r0) =
        updRec d s it r0
      rw [if_pos (show r0.url = normalize_url it.url by rw [hurl, hmatch])]
    · rw [upsert_map_urls]
      exact huniq
  · have hne : ¬ (r0.url = normalize_url it.url) := by
      rw [hurl]
      exact fun h => hmatch h.symm
    by_cases hany : tbl.any (fun r => r.url = normalize_url it.url) = true
    · rw [if_pos hany]
      refine ⟨r0, ?_, hurl, by simp [hmatch], rfl, ?_⟩
      · refine List.mem_map.mpr ⟨r0, hmem, ?_⟩
        show (if r0.url = normalize_url it.url then updRec d s it r0 else r0) = r0
        rw [if_neg hne]
      · rw [upsert_map_urls]
        exact huniq
    · rw [if_neg hany]
      refine ⟨r0, List.mem_append.mpr (Or.inl hmem), hurl, by simp [hmatch], rfl, ?_⟩
      rw [List.map_append]
      refine List.nodup_append.mpr ⟨huniq, List.nodup_singleton _, ?_⟩
      intro x hx hx'
      obtain ⟨r, hr, rfl⟩ := List.mem_map.mp hx
      have hxeq : r.url = normalize_url it.url := by
        simpa [freshRec] using hx'
      rw [List.any_eq_true] at hany
      exact hany ⟨r, hr, by simp [hxeq]⟩

/-- Folding a batch of items into a table: a pre-existing record's
`seen_count` grows by exactly the number of batch items sharing its
canonical url, and `first_seen_date` is unchanged. -/
theorem foldl_upsert_count (d s : List Char) (its : List DigestItem) :
    ∀ (tbl : List StoredRecord) (u : List Char) (r0 : StoredRecord),
      (tbl.map (·.url)).Nodup → r0 ∈ tbl → r0.url = u →
      ∃ r1 ∈ its.foldl (upsertRec d s) tbl, r1.url = u ∧
        r1.seen_count = r0.seen_count +
          ((its.filter (fun it => normalize_url it.url = u)).length : Int) ∧
        r1.first_seen_date = r0.first_seen_date ∧
        ((its.foldl (upsertRec d s) tbl).map (·.url)).Nodup := by
  induction its with
  | nil =>
      intro tbl u r0 huniq hmem hurl
      exact ⟨r0, hmem, hurl, by simp, rfl, huniq⟩
  | cons it rest ih =>
      intro tbl u r0 huniq hmem hurl
      obtain ⟨r', hmem', hurl', hcount', hfirst', huniq'⟩ :=
        upsert_step d s it tbl u r0 huniq hmem hurl
      obtain ⟨r1, hmem1, hurl1, hcount1, hfirst1, huniq1⟩ :=
        ih (upsertRec d s tbl it) u r' huniq' hmem' hurl'
      refine ⟨r1, by simpa using hmem1, hurl1, ?_, by rw [hfirst1, hfirst'],
        by simpa using huniq1⟩
      rw [hcount1, hcount', List.filter_cons]
      by_cases hmatch : normalize_url it.url = u
      · simp [hmatch]
        ring
      · simp [hmatch]

/-- Folding a batch preserves the date invariant, provided no stored
`first_seen_date` is later than the run date. -/
theorem foldl_upsert_inv (d s : List Char) (its : List DigestItem) :
    ∀ tbl : List StoredRecord,
      (∀ r ∈ tbl, strLe r.first_seen_date r.last_seen_date = true ∧
        strLe r.first_seen_date d = true) →
      ∀ r ∈ its.foldl (upsertRec d s) tbl,
        strLe r.first_seen_date r.last_seen_date = true ∧
        strLe r.first_seen_date d = true := by
  induction its with
  | nil => intro tbl h r hr; exact h r hr
  | cons it rest ih =>
      intro tbl h
      refine ih (upsertRec d s tbl it) ?_
      intro r hr
      unfold upsertRec at hr
      by_cases hany : tbl.any (fun rr => rr.url = normalize_url it.url) = true
      · rw [if_pos hany] at hr
        obtain ⟨r', hr', hval⟩ := List.mem_map.mp hr
        by_cases hu : r'.url = normalize_url it.url
        · rw [if_pos hu] at hval
          subst hval
          exact ⟨(h r' hr').2, (h r' hr').2⟩
        · rw [if_neg hu] at hval
          subst hval
          exact h r' hr'
      · rw [if_neg hany] at hr
        rcases List.mem_append.mp hr with hr | hr
        · exact h r hr
        · rcases List.mem_singleton.mp hr with rfl
          exact ⟨strLe_refl d, strLe_refl d⟩

/-- `save_items` acts on each of the two tables as a fold independent of the
other table. -/
theorem save_items_items_eq (dg : DigestResult) :
    ∀ db : StoreDB,
      (save_items dg db).items =
        dg.sections.foldl
          (fun tbl sec => sec.items.foldl (upsertRec dg.date_utc sec.name) tbl)
          db.items ∧
      (save_items dg db).dropped =
        dg.sections.foldl
          (fun tbl sec =>
            sec.dropped_items.foldl (upsertRec dg.date_utc sec.name) tbl)
          db.dropped := by
  unfold save_items
  generalize dg.sections = secs
  induction secs with
  | nil => intro db; exact ⟨rfl, rfl⟩
  | cons sec rest ih =>
      intro db
      simpa using ih _

/-- `foldl_upsert_count` lifted to a whole run (all sections). -/
theorem foldl_sections_count (d : List Char) :
    ∀ (secs : List DigestSection) (tbl : List StoredRecord) (u : List Char)
      (r0 : StoredRecord),
      (tbl.map (·.url)).Nodup → r0 ∈ tbl → r0.url = u →
      ∃ r1 ∈ secs.foldl
          (fun tbl sec => sec.items.foldl (upsertRec d sec.name) tbl) tbl,
        r1.url = u ∧
        r1.seen_count = r0.seen_count +
          (((secs.flatMap (·.items)).filter
              (fun it => normalize_url it.url = u)).length : Int) := by
  intro secs
  induction secs with
  | nil =>
      intro tbl u r0 huniq hmem hurl
      exact ⟨r0, hmem, hurl, by simp⟩
  | cons sec rest ih =>
      intro tbl u r0 huniq hmem hurl
      obtain ⟨r', hmem', hurl', hcount', -, huniq'⟩ :=
        foldl_upsert_count d sec.name sec.items tbl u r0 huniq hmem hurl
      obtain ⟨r1, hmem1, hurl1, hcount1⟩ :=
        ih (sec.items.foldl (upsertRec d sec.name) tbl) u r' huniq' hmem' hurl'
      refine ⟨r1, by simpa using hmem1, hurl1, ?_⟩
      rw [hcount1, hcount', List.flatMap_cons, List.filter_append,
        List.length_append]
      push_cast
      ring

/-- `foldl_upsert_inv` lifted to a whole run, for either table selector. -/
theorem foldl_sections_inv (d : List Char) (sel : DigestSection → List DigestItem) :
    ∀ (secs : List DigestSection) (tbl : List StoredRecord),
      (∀ r ∈ tbl, strLe r.first_seen_date r.last_seen_date = true ∧
        strLe r.first_seen_date d = true) →
      ∀ r ∈ secs.foldl
          (fun tbl sec => (sel sec).foldl (upsertRec d sec.name) tbl) tbl,
        strLe r.first_seen_date r.last_seen_date = true ∧
        strLe r.first_seen_date d = true := by
  intro secs
  induction secs with
  | nil => intro tbl h r hr; exact h r hr
  | cons sec rest ih =>
      intro tbl h r hr
      exact ih _ (fun r' hr' => foldl_upsert_inv d sec.name (sel sec) tbl h r' hr')
        r (by simpa using hr)

/-! ## Claim theorems: the Seen-Item Store (C1, C6) -/

/-- C1 (confirmed).  Upsert accumulation: when an item whose canonical url is
absent from the store is saved in a run dated `d1`, and an item with the same
canonical url is saved in a second run dated `d2`, the resulting row has
`seen_count = 2`, `first_seen_date = d1`, `last_seen_date = d2`, and all
descriptive fields (title, published_date, summary, source_type, publisher,
section_name, the quality columns) taken from the second run's item. -/
theorem save_items_upsert_accumulation
    (db : StoreDB) (i1 i2 : DigestItem) (d1 d2 n1 n2 q1 q2 : List Char)
    (th1 th2 : List (List Char)) (dr1 dr2 : List DigestItem) (dur1 dur2 : ℚ)
    (hsame : normalize_url i2.url = normalize_url i1.url)
    (habsent : ∀ r ∈ db.items, r.url ≠ normalize_url i1.url) :
    ((save_items ⟨d2, th2, [⟨n2, q2, [i2], dr2⟩], dur2⟩
        (save_items ⟨d1, th1, [⟨n1, q1, [i1], dr1⟩], dur1⟩ db)).items.filter
          (fun r => r.url = normalize_url i1.url)) =
      [{ url := normalize_url i1.url, title := i2.title,
         published_date := pyOrNone i2.published_date,
         summary := i2.summary, source_type := i2.source_type,
         publisher := pyOrNone i2.publisher, section_name := n2,
         quality_verdict := i2.quality.bind (fun q => dictGet q "verdict".toList),
         quality_confidence := i2.quality.bind (fun q => dictGet q "confidence".toList),
         quality_reason := i2.quality.bind (fun q => dictGet q "reason".toList),
         quality_json := i2.quality.map pyDumpsStrDict,
         first_seen_date := d1, last_seen_date := d2, seen_count := 2 }] := by
  have hany1 : ¬ ((db.items.any (fun r => r.url = normalize_url i1.url)) = true) := by
    rw [List.any_eq_true]
    rintro ⟨r, hr, hp⟩
    exact habsent r hr (by simpa using hp)
  have h1 : (save_items ⟨d1, th1, [⟨n1, q1, [i1], dr1⟩], dur1⟩ db).items =
      db.items ++ [freshRec d1 n1 i1] := by
    rw [(save_items_items_eq _ db).1]
    show upsertRec d1 n1 db.items i1 = _
    unfold upsertRec
    rw [if_neg hany1]
  have hany2 : ((db.items ++ [freshRec d1 n1 i1]).any
      (fun r => r.url = normalize_url i2.url)) = true := by
    rw [List.any_eq_true]
    exact ⟨freshRec d1 n1 i1, by simp, by simp [freshRec, hsame]⟩
  rw [(save_items_items_eq _ _).1, h1]
  show ((upsertRec d2 n2 (db.items ++ [freshRec d1 n1 i1]) i2).filter
      (fun r => r.url = normalize_url i1.url)) = _
  unfold upsertRec
  rw [if_pos hany2, List.map_append]
  have hmapid : (db.items.map
      (fun r => if r.url = normalize_url i2.url then updRec d2 n2 i2 r else r)) =
      db.items := by
    conv_rhs => rw [← List.map_id db.items]
    refine List.map_congr_left (fun r hr => ?_)
    rw [if_neg]
    · rfl
    · rw [hsame]
      exact habsent r hr
  have hmapfresh : ([freshRec d1 n1 i1].map
      (fun r => if r.url = normalize_url i2.url then updRec d2 n2 i2 r else r)) =
      [updRec d2 n2 i2 (freshRec d1 n1 i1)] := by
    have : (freshRec d1 n1 i1).url = normalize_url i2.url := by
      rw [hsame]
      rfl
    simp [this]
  rw [hmapid, hmapfresh, List.filter_append]
  have hfilter1 : db.items.filter (fun r => r.url = normalize_url i1.url) = [] :=
    List.filter_eq_nil_iff.mpr (fun r hr => by simpa using habsent r hr)
  have hfilter2 : [updRec d2 n2 i2 (freshRec d1 n1 i1)].filter
      (fun r => r.url = normalize_url i1.url) =
      [updRec d2 n2 i2 (freshRec d1 n1 i1)] := by
    have : (updRec d2 n2 i2 (freshRec d1 n1 i1)).url = normalize_url i1.url := rfl
    simp [this]
  rw [hfilter1, hfilter2, List.nil_append]
  rfl

/-- C1 witness: two concrete runs over an initially empty store. -/
theorem save_items_upsert_accumulation_witness :
    ((save_items ⟨"2024-01-02".toList, [], [⟨"News".toList, "q".toList,
        [⟨"t2".toList, "2024-01-02".toList, "http://x.com/a/".toList,
          "s2".toList, "news".toList, "P2".toList, none⟩], []⟩], 0⟩
      (save_items ⟨"2024-01-01".toList, [], [⟨"News".toList, "q".toList,
        [⟨"t1".toList, "2024-01-01".toList, "http://x.com/a".toList,
          "s1".toList, "news".toList, "P1".toList, none⟩], []⟩], 0⟩
        ⟨[], []⟩)).items.filter
          (fun r => r.url = normalize_url "http://x.com/a".toList)) =
      [{ url := normalize_url "http://x.com/a".toList, title := "t2".toList,
         published_date := pyOrNone "2024-01-02".toList,
         summary := "s2".toList, source_type := "news".toList,
         publisher := pyOrNone "P2".toList, section_name := "News".toList,
         quality_verdict := none, quality_confidence := none,
         quality_reason := none, quality_json := none,
         first_seen_date := "2024-01-01".toList,
         last_seen_date := "2024-01-02".toList, seen_count := 2 }] :=
  save_items_upsert_accumulation ⟨[], []⟩
    ⟨"t1".toList, "2024-01-01".toList, "http://x.com/a".toList,
      "s1".toList, "news".toList, "P1".toList, none⟩
    ⟨"t2".toList, "2024-01-02".toList, "http://x.com/a/".toList,
      "s2".toList, "news".toList, "P2".toList, none⟩
    "2024-01-01".toList "2024-01-02".toList "News".toList "News".toList
    "q".toList "q".toList [] [] [] [] 0 0
    (by decide) (by simp)

/-- C6, counterexample.  A single run whose batch contains two items with the
same canonical url increments that record's `seen_count` by 2, not by
exactly 1: starting from `seen_count = 1` the run ends at 3. -/
theorem save_items_seen_count_counterexample :
    ((save_items
        ⟨"2024-01-02".toList, [], [⟨"News".toList, "q".toList,
          [⟨"t".toList, [], "u".toList, "s".toList, "news".toList, [], none⟩,
           ⟨"t2".toList, [], "u".toList, "s2".toList, "news".toList, [], none⟩],
          []⟩], 0⟩
        ⟨[{ url := "u".toList, title := "t0".toList, published_date := none,
            summary := "s0".toList, source_type := "news".toList,
            publisher := none, section_name := "News".toList,
            quality_verdict := none, quality_confidence := none,
            quality_reason := none, quality_json := none,
            first_seen_date := "2024-01-01".toList,
            last_seen_date := "2024-01-01".toList,
            seen_count := 1 }], []⟩).items.map
      (fun r => (r.url, r.seen_count))) = [("u".toList, 3)] := by
  decide

/-- C6, amended.  In a single `save_items` run, a record whose canonical url
is already present has its `seen_count` increased by exactly the number of
kept items in the batch with that canonical url (so by exactly 1 when the
batch mentions the url once, but by `k` when it mentions it `k` times); and
`last_seen_date ≥ first_seen_date` holds for every record after the run
provided it held before and no stored `first_seen_date` is later than the
run date. -/
theorem save_items_count_and_date_invariant
    (db : StoreDB) (dg : DigestResult) (u : List Char) (r0 : StoredRecord)
    (huniq : (db.items.map (·.url)).Nodup)
    (hmem : r0 ∈ db.items) (hurl : r0.url = u) :
    (∃ r1 ∈ (save_items dg db).items, r1.url = u ∧
        r1.seen_count = r0.seen_count +
          (((dg.sections.flatMap (·.items)).filter
              (fun it => normalize_url it.url = u)).length : Int))
    ∧ ((∀ r ∈ db.items, strLe r.first_seen_date r.last_seen_date = true ∧
          strLe r.first_seen_date dg.date_utc = true) →
       (∀ r ∈ db.dropped, strLe r.first_seen_date r.last_seen_date = true ∧
          strLe r.first_seen_date dg.date_utc = true) →
       (∀ r ∈ (save_items dg db).items,
          strLe r.first_seen_date r.last_seen_date = true) ∧
       (∀ r ∈ (save_items dg db).dropped,
          strLe r.first_seen_date r.last_seen_date = true)) := by
  constructor
  · rw [(save_items_items_eq dg db).1]
    exact foldl_sections_count dg.date_utc dg.sections db.items u r0 huniq hmem hurl
  · intro h1 h2
    constructor
    · intro r hr
      rw [(save_items_items_eq dg db).1] at hr
      exact (foldl_sections_inv dg.date_utc (·.items) dg.sections db.items h1 r hr).1
    · intro r hr
      rw [(save_items_items_eq dg db).2] at hr
      exact (foldl_sections_inv dg.date_utc (·.dropped_items) dg.sections db.dropped
        h2 r hr).1

/-- C6 witness: a concrete run re-encountering a stored url once. -/
theorem save_items_count_and_date_invariant_witness :
    (∃ r1 ∈ (save_items
        ⟨"2024-01-02".toList, [], [⟨"News".toList, "q".toList,
          [⟨"t".toList, [], "u".toList, "s".toList, "news".toList, [], none⟩],
          []⟩], 0⟩
        ⟨[{ url := "u".toList, title := "t0".toList, published_date := none,
            summary := "s0".toList, source_type := "news".toList,
            publisher := none, section_name := "News".toList,
            quality_verdict := none, quality_confidence := none,
            quality_reason := none, quality_json := none,
            first_seen_date := "2024-01-01".toList,
            last_seen_date := "2024-01-01".toList,
            seen_count := 1 }], []⟩).items, r1.url = "u".toList ∧
        r1.seen_count = 1 + 1) := by
  obtain ⟨r1, hmem, hurl, hcount⟩ :=
    (save_items_count_and_date_invariant
      ⟨[{ url := "u".toList, title := "t0".toList, published_date := none,
          summary := "s0".toList, source_type := "news".toList,
          publisher := none, section_name := "News".toList,
          quality_verdict := none, quality_confidence := none,
          quality_reason := none, quality_json := none,
          first_seen_date := "2024-01-01".toList,
          last_seen_date := "2024-01-01".toList,
          seen_count := 1 }], []⟩
      ⟨"2024-01-02".toList, [], [⟨"News".toList, "q".toList,
        [⟨"t".toList, [], "u".toList, "s".toList, "news".toList, [], none⟩],
        []⟩], 0⟩
      "u".toList
      { url := "u".toList, title := "t0".toList, published_date := none,
        summary := "s0".toList, source_type := "news".toList,
        publisher := none, section_name := "News".toList,
        quality_verdict := none, quality_confidence := none,
        quality_reason := none, quality_json := none,
        first_seen_date := "2024-01-01".toList,
        last_seen_date := "2024-01-01".toList,
        seen_count := 1 }
      (by decide) (by simp) rfl).1
  exact ⟨r1, hmem, hurl, by simpa using hcount⟩

/-! ## Claim theorems: the digest date filter (C10) -/

/-- C10 (confirmed).  The digest date filter never drops an item for lack of
a date: a missing (`none`), empty or whitespace-only `published_date`, and
any string whose first 10 characters do not parse as `YYYY-MM-DD`, all make
`_parse_date` return `None`, and `_is_within_days_back` returns `True` for
every `days_back` whenever `_parse_date` returns `None`. -/
theorem is_within_days_back_keeps_undated :
    (_parse_date none = none) ∧
    (∀ l : List Char, (∀ c ∈ l, isPySpace c = true) → _parse_date (some l) = none) ∧
    (∀ (today days_back : ℤ) (s : Option (List Char)),
      _parse_date s = none → _is_within_days_back today s days_back = true) := by
  refine ⟨rfl, ?_, ?_⟩
  · intro l hl
    have hstrip : pyStrip l = [] := by
      unfold pyStrip
      rw [List.dropWhile_eq_nil_iff.mpr hl]
      rfl
    unfold _parse_date
    simp [hstrip]
  · intro today days_back s hs
    unfold _is_within_days_back
    rw [hs]
    by_cases h : days_back ≤ 0 <;> simp [h]

/-- C10 witness: a concrete undated item is kept for a concrete window. -/
theorem is_within_days_back_keeps_undated_witness :
    _is_within_days_back 739000 (some "no-date".toList) 7 = true :=
  is_within_days_back_keeps_undated.2.2 739000 7 (some "no-date".toList) (by decide)

/-! ## Supporting lemmas: trend lifecycle (C7) -/

/-- Successful `_identify_active_topics` output contains, for every entry of
the input dict, whatever `identifyOne` produced for it. -/
theorem identify_mem (minGap : ℤ) :
    ∀ (ts : List (List Char × List TrendDataPoint))
      (res : List (List Char × (List Char × Option (List Char)))),
      _identify_active_topics ts minGap = some res →
      ∀ t ps, (t, ps) ∈ ts →
      ∃ r, identifyOne minGap ps = some r ∧
        ∀ e, r = some e → (t, e) ∈ res := by
  intro ts
  induction ts with
  | nil =>
      intro res h t ps hm
      simp at hm
  | cons hd rest ih =>
      intro res h t ps hm
      obtain ⟨t', ps'⟩ := hd
      unfold _identify_active_topics at h
      cases h1 : identifyOne minGap ps' with
      | none => rw [h1] at h; cases h
      | some r' =>
        cases h2 : _identify_active_topics rest minGap with
        | none => rw [h1, h2] at h; cases h
        | some tail =>
          rw [h1, h2] at h
          rcases List.mem_cons.mp hm with heq | hm'
          · obtain ⟨ht, hps⟩ := Prod.mk.injEq .. ▸ heq
            subst ht
            subst hps
            refine ⟨r', h1, fun e he => ?_⟩
            subst he
            simp only at h
            injection h with h
            subst h
            exact List.mem_cons_self _ _
          · obtain ⟨r, hr, hmem⟩ := ih tail h2 t ps hm'
            refine ⟨r, hr, fun e he => ?_⟩
            have := hmem e he
            cases r' with
            | some e' =>
                simp only at h
                injection h with h
                subst h
                exact List.mem_cons_of_mem _ this
            | none =>
                simp only at h
                injection h with h
                subst h
                exact this

/-- The integer test used in `identifyOne` is exactly Python's float test
`days / 7 > min_gap_weeks` (here over exact rationals). -/
theorem gap_test_exact (g m : ℤ) : (7 * m < g) ↔ ((m : ℚ) < (g : ℚ) / 7) := by
  rw [lt_div_iff₀ (by norm_num : (0 : ℚ) < 7),
    show ((m : ℚ) * 7) = ((7 * m : ℤ) : ℚ) by push_cast; ring]
  exact Int.cast_lt.symm

/-- `identifyOne` computed from the shape of its input series. -/
theorem identifyOne_eq (minGap : ℤ) (ps : List TrendDataPoint)
    (lp fz lz : TrendDataPoint) (hlast : ps.getLast? = some lp)
    (hfz : (ps.filter (fun p => 0 < p.count)).head? = some fz)
    (hlz : (ps.filter (fun p => 0 < p.count)).getLast? = some lz)
    (a b : ℕ × ℕ × ℕ)
    (hpa : strptimeYMD lp.date = some a) (hpb : strptimeYMD lz.date = some b) :
    identifyOne minGap ps = some (some (fz.date,
      if 7 * minGap < toOrdinal a.1 a.2.1 a.2.2 - toOrdinal b.1 b.2.1 b.2.2
      then some lz.date else none)) := by
  have hne : ps ≠ [] := by
    intro h
    rw [h] at hlast
    simp at hlast
  have hnzne : ps.filter (fun p => 0 < p.count) ≠ [] := by
    intro h
    rw [h] at hfz
    simp at hfz
  unfold identifyOne
  rw [if_neg hne, if_neg hnzne, hlast, hfz, hlz]
  simp only [hpa, hpb]

/-! ## Claim theorems: trend lifecycle (C7) -/

/-- C7 (confirmed).  For every topic of a series dict successfully processed
by `_identify_active_topics` (gap threshold 4 weeks): a topic whose only
period with nonzero mentions is the most recent one is reported with
`end_date = None`; a topic whose last nonzero-mention date lies more than
4 weeks (i.e. more than 28 days) before the final period's date is reported
with `end_date` equal to that last-mention date; and the reported
`start_date` is always the date of the first period with nonzero
mentions. -/
theorem trends_topic_lifecycle
    (ts : List (List Char × List TrendDataPoint))
    (res : List (List Char × (List Char × Option (List Char))))
    (t : List Char) (ps : List TrendDataPoint)
    (h : _identify_active_topics ts 4 = some res)
    (hm : (t, ps) ∈ ts)
    (lp fz lz : TrendDataPoint)
    (hlast : ps.getLast? = some lp)
    (hfz : (ps.filter (fun p => 0 < p.count)).head? = some fz)
    (hlz : (ps.filter (fun p => 0 < p.count)).getLast? = some lz)
    (a b : ℕ × ℕ × ℕ)
    (hpa : strptimeYMD lp.date = some a) (hpb : strptimeYMD lz.date = some b) :
    ((∀ p ∈ ps.dropLast, p.count = 0) → 0 < lp.count →
        (t, (lp.date, none)) ∈ res)
    ∧ (28 < toOrdinal a.1 a.2.1 a.2.2 - toOrdinal b.1 b.2.1 b.2.2 →
        (t, (fz.date, some lz.date)) ∈ res)
    ∧ (∃ e, (t, (fz.date, e)) ∈ res) := by
  obtain ⟨r, hr, hmem⟩ := identify_mem 4 ts res h t ps hm
  have heq := identifyOne_eq 4 ps lp fz lz hlast hfz hlz a b hpa hpb
  rw [heq] at hr
  injection hr with hr
  refine ⟨?_, ?_, ?_⟩
  · intro hzero hpos
    obtain ⟨ys, hys⟩ := List.getLast?_eq_some_iff.mp hlast
    have hfil : ps.filter (fun p => 0 < p.count) = [lp] := by
      rw [hys, List.filter_append, List.filter_eq_nil_iff.mpr ?_]
      · simp [hpos]
      · intro p hp
        have hz := hzero p (by rw [hys, List.dropLast_concat]; exact hp)
        simp [hz]
    have hfzlp : fz = lp := by
      rw [hfil] at hfz
      simp at hfz
      exact hfz.symm
    have hlzlp : lz = lp := by
      rw [hfil] at hlz
      simp at hlz
      exact hlz.symm
    have hab : a = b := by
      rw [hlzlp] at hpb
      rw [hpa] at hpb
      injection hpb
    rw [hab] at hr
    rw [if_neg (by omega)] at hr
    rw [hfzlp] at hr
    exact hmem _ hr.symm
  · intro hgap
    rw [if_pos (by omega)] at hr
    exact hmem _ hr.symm
  · exact ⟨_, hmem _ hr.symm⟩

/-- C7 witness: a topic last mentioned on 2024-01-01 in a series ending
2024-05-13 (a 133-day gap) is reported ended with that last-mention date,
starting at its first nonzero date. -/
theorem trends_topic_lifecycle_witness :
    ("binding".toList,
      ("2024-01-01".toList, some "2024-01-01".toList)) ∈
      [("binding".toList, ("2024-01-01".toList, some "2024-01-01".toList))] := by
  refine (trends_topic_lifecycle
    [("binding".toList,
      [⟨"2024-W01".toList, "2024-01-01".toList, 2⟩,
       ⟨"2024-W20".toList, "2024-05-13".toList, 0⟩])]
    [("binding".toList, ("2024-01-01".toList, some "2024-01-01".toList))]
    "binding".toList
    [⟨"2024-W01".toList, "2024-01-01".toList, 2⟩,
     ⟨"2024-W20".toList, "2024-05-13".toList, 0⟩]
    ?_ (by simp)
    ⟨"2024-W20".toList, "2024-05-13".toList, 0⟩
    ⟨"2024-W01".toList, "2024-01-01".toList, 2⟩
    ⟨"2024-W01".toList, "2024-01-01".toList, 2⟩
    (by decide) (by decide) (by decide)
    (2024, 5, 13) (2024, 1, 1) (by decide) (by decide)).2.1 (by decide)
  decide

/-! ## Supporting lemmas: time-series construction (C8) -/

/-- Every bucket produced by period grouping is nonempty: keys exist only
for periods some item maps to. -/
theorem groupKeys_nonempty (items : List StoredRecord) (ptype : List Char) :
    ∀ kv ∈ ((items.filterMap (periodOf ptype)).dedup).map
        (fun p => (p, items.filter (fun r => periodOf ptype r = some p))),
      kv.2 ≠ [] := by
  intro kv hkv
  obtain ⟨p, hp, rfl⟩ := List.mem_map.mp hkv
  rw [List.mem_dedup] at hp
  obtain ⟨r, hr, hpr⟩ := List.mem_filterMap.mp hp
  exact List.ne_nil_of_mem (List.mem_filter.mpr ⟨hr, by simp [hpr]⟩)

theorem mem_insertSorted {α : Type} (le : α → α → Bool) (x a : α)
    (l : List α) : a ∈ insertSorted le x l ↔ a = x ∨ a ∈ l := by
  induction l with
  | nil => simp [insertSorted]
  | cons y ys ih =>
      by_cases h : le x y
      · simp [insertSorted, h]
      · simp [insertSorted, h, ih]
        tauto

theorem mem_sortBy {α : Type} (le : α → α → Bool) (a : α) (l : List α) :
    a ∈ sortBy le l ↔ a ∈ l := by
  induction l with
  | nil => simp [sortBy]
  | cons x xs ih =>
      simp [sortBy, mem_insertSorted, ih]

/-- Dict lookup over a keyed map: the entry for a present key is its own. -/
theorem find?_keyed (keys : List (List Char))
    (f : List Char → List StoredRecord) (p : List Char) (hp : p ∈ keys) :
    (keys.map (fun q => (q, f q))).find? (fun kv => kv.1 = p) = some (p, f p) := by
  induction keys with
  | nil => simp at hp
  | cons q rest ih =>
      by_cases hq : q = p
      · subst hq
        rw [List.map_cons, List.find?_cons_of_pos _ (by simp)]
      · rw [List.map_cons, List.find?_cons_of_neg _ (by simp [hq])]
        exact ih (by rcases List.mem_cons.mp hp with h | h; exact absurd h.symm hq; exact h)

theorem bucketLookup_keyed (items : List StoredRecord) (ptype p : List Char)
    (hp : p ∈ (items.filterMap (periodOf ptype)).dedup) :
    bucketLookup (((items.filterMap (periodOf ptype)).dedup).map
        (fun q => (q, items.filter (fun r => periodOf ptype r = some q)))) p =
      items.filter (fun r => periodOf ptype r = some p) := by
  unfold bucketLookup
  rw [find?_keyed _ _ p hp]
  rfl

/-- When every listed period has a nonempty bucket, the per-period date pass
of `_build_time_series` succeeds, keeps the period order, and takes every
date from the first item of the period's bucket (never from synthesis). -/
theorem mapM_periodDate (pi : List (List Char × List StoredRecord))
    (ptype : List Char) :
    ∀ l : List (List Char), (∀ p ∈ l, bucketLookup pi p ≠ []) →
      ∃ pds, l.mapM (periodDate pi ptype) = some pds ∧
        pds.map (·.1) = l ∧
        ∀ pd ∈ pds, ∃ r rs, bucketLookup pi pd.1 = r :: rs ∧
          pd.2 = r.first_seen_date := by
  intro l
  induction l with
  | nil => intro _; exact ⟨[], rfl, rfl, by simp⟩
  | cons p rest ih =>
      intro h
      obtain ⟨pds', h1, h2, h3⟩ := ih (fun q hq => h q (List.mem_cons_of_mem _ hq))
      have hb := h p (List.mem_cons_self _ _)
      cases hbl : bucketLookup pi p with
      | nil => exact absurd hbl hb
      | cons r rs =>
          have hpd : periodDate pi ptype p = some (p, r.first_seen_date) := by
            unfold periodDate
            rw [hbl]
          refine ⟨(p, r.first_seen_date) :: pds', ?_, by simp [h2], ?_⟩
          · rw [List.mapM_cons, hpd, h1]
            rfl
          · intro pd hpd'
            rcases List.mem_cons.mp hpd' with rfl | hpd'
            · exact ⟨r, rs, hbl, rfl⟩
            · exact h3 pd hpd'

/-- On a duplicate-free topic list the dict-comprehension keys are the list
itself. -/
theorem dedupKeys_of_nodup : ∀ {topics : List (List Char)}, topics.Nodup →
    dedupKeys topics = topics := by
  intro topics
  induction topics with
  | nil => intro _; rfl
  | cons t rest ih =>
      intro h
      rw [List.nodup_cons] at h
      rw [dedupKeys, ih h.2, List.filter_eq_self.mpr]
      intro s hs
      simp only [decide_eq_true_eq]
      intro he
      subst he
      exact h.1 hs

theorem countP_eq_one_of_nodup {t : List Char} :
    ∀ {topics : List (List Char)}, topics.Nodup → t ∈ topics →
      topics.countP (fun s => s = t) = 1 := by
  intro topics
  induction topics with
  | nil => intro _ ht; simp at ht
  | cons a rest ih =>
      intro hnd ht
      rw [List.nodup_cons] at hnd
      rw [List.countP_cons]
      rcases List.mem_cons.mp ht with rfl | ht'
      · rw [if_pos (by simp)]
        rw [List.countP_eq_zero.mpr ?_]
        · intro s hs h2
          simp only [decide_eq_true_eq] at h2
          subst h2
          exact hnd.1 hs
      · rw [if_neg ?_, ih hnd.2 ht']
        simp only [decide_eq_true_eq]
        intro he
        rw [he] at hnd
        exact hnd.1 ht'

theorem flatMap_replicate_one {α β : Type} (l : List α) (f : α → β) :
    l.flatMap (fun x => List.replicate 1 (f x)) = l.map f := by
  induction l with
  | nil => rfl
  | cons a tl ih =>
      simp only [List.replicate_one] at ih
      simp [List.flatMap_cons, ih]

/-! ## Claim theorems: series continuity (C8) -/

/-- C8, counterexample.  Two items first seen on 2024-01-01 (ISO week
2024-W01) and 2024-01-15 (2024-W03), analyzed weekly over January 2024,
produce a series with exactly two data points: the intermediate week
2024-W02 of the analyzed range has no bucket and no data point at all,
whereas the claim requires a point for every period bucket in the range. -/
theorem trends_series_counterexample :
    _build_time_series
      (_get_items_by_time_period
        [{ url := "u1".toList, title := "t1".toList, published_date := none,
           summary := "s1".toList, source_type := "news".toList,
           publisher := none, section_name := "News".toList,
           quality_verdict := none, quality_confidence := none,
           quality_reason := none, quality_json := none,
           first_seen_date := "2024-01-01".toList,
           last_seen_date := "2024-01-01".toList, seen_count := 1 },
         { url := "u2".toList, title := "t2".toList, published_date := none,
           summary := "s2".toList, source_type := "news".toList,
           publisher := none, section_name := "News".toList,
           quality_verdict := none, quality_confidence := none,
           quality_reason := none, quality_json := none,
           first_seen_date := "2024-01-15".toList,
           last_seen_date := "2024-01-15".toList, seen_count := 1 }]
        "2024-01-01".toList "2024-01-31".toList "week".toList)
      ["zz".toList] "week".toList =
    some [("zz".toList,
      [⟨"2024-W01".toList, "2024-01-01".toList, 0⟩,
       ⟨"2024-W03".toList, "2024-01-15".toList, 0⟩])] := by
  decide

/-- C8, amended.  Composed with `_get_items_by_time_period`, every period
bucket contains at least one item, so for a duplicate-free topic list each
topic's time series has exactly one data point per *nonempty* period bucket
(in sorted period order), and every point's representative date is the
`first_seen_date` of a stored item — the synthesized-from-label date of the
empty-bucket branch is never used in the analysis pipeline; periods of the
analyzed range in which no item falls are simply absent from the series.
(The duplicate-free hypothesis is needed: the Python dict dedups the series
keys while the period loop appends once per occurrence of a topic in
`topics`, so a topic listed `k` times gets `k` identical points per
nonempty bucket.) -/
theorem trends_series_point_per_nonempty_bucket
    (db : List StoredRecord) (start stop ptype : List Char)
    (topics : List (List Char)) (hnd : topics.Nodup) :
    (∀ kv ∈ _get_items_by_time_period db start stop ptype, kv.2 ≠ []) ∧
    ∃ series,
      _build_time_series (_get_items_by_time_period db start stop ptype)
        topics ptype = some series ∧
      series.map (·.1) = topics ∧
      ∀ tp ∈ series,
        tp.2.map (·.period) =
          sortBy strLe ((_get_items_by_time_period db start stop ptype).map (·.1)) ∧
        ∀ pt ∈ tp.2, ∃ r ∈ db, pt.date = r.first_seen_date := by
  have hgitp : _get_items_by_time_period db start stop ptype =
      (((sortBy (fun a b => strLe a.first_seen_date b.first_seen_date)
          (db.filter (fun r => strLe start r.first_seen_date &&
            strLe r.first_seen_date stop))).filterMap
          (periodOf ptype)).dedup).map (fun p =>
        (p, (sortBy (fun a b => strLe a.first_seen_date b.first_seen_date)
          (db.filter (fun r => strLe start r.first_seen_date &&
            strLe r.first_seen_date stop))).filter
          (fun r => periodOf ptype r = some p))) := rfl
  set items := sortBy (fun a b => strLe a.first_seen_date b.first_seen_date)
      (db.filter (fun r => strLe start r.first_seen_date &&
        strLe r.first_seen_date stop)) with hitems
  set keys := (items.filterMap (periodOf ptype)).dedup with hkeys
  set pi := keys.map (fun p =>
      (p, items.filter (fun r => periodOf ptype r = some p))) with hpi
  have hpikeys : pi.map (·.1) = keys := by
    rw [hpi, List.map_map]
    exact List.map_id keys
  constructor
  · rw [hgitp]
    exact groupKeys_nonempty items ptype
  · have hbuckets : ∀ p ∈ sortBy strLe (pi.map (·.1)),
        bucketLookup pi p ≠ [] := by
      intro p hp
      have hpk : p ∈ keys := by
        rw [← hpikeys]
        exact (mem_sortBy strLe p _).mp hp
      rw [hpi, bucketLookup_keyed items ptype p hpk]
      have hpk' := hpk
      rw [hkeys, List.mem_dedup] at hpk'
      obtain ⟨r, hr, hpr⟩ := List.mem_filterMap.mp hpk'
      exact List.ne_nil_of_mem (List.mem_filter.mpr ⟨hr, by simp [hpr]⟩)
    obtain ⟨pds, hmapm, hfst, hdates⟩ :=
      mapM_periodDate pi ptype (sortBy strLe (pi.map (·.1))) hbuckets
    refine ⟨topics.map (fun t => (t, pds.map (fun pd =>
      (⟨pd.1, pd.2, _calculate_topic_mentions (bucketLookup pi pd.1) t⟩ :
        TrendDataPoint)))), ?_, ?_, ?_⟩
    · show ((sortBy strLe (pi.map (·.1))).mapM (periodDate pi ptype)).map _ =
        some _
      rw [hmapm]
      show some _ = some _
      congr 1
      rw [dedupKeys_of_nodup hnd]
      apply List.map_congr_left
      intro t ht
      congr 1
      simp only [countP_eq_one_of_nodup hnd ht]
      exact flatMap_replicate_one _ _
    · rw [List.map_map]
      exact List.map_id topics
    · intro tp htp
      obtain ⟨t, ht, rfl⟩ := List.mem_map.mp htp
      constructor
      · rw [hgitp]
        show (pds.map (fun pd =>
          (⟨pd.1, pd.2, _calculate_topic_mentions (bucketLookup pi pd.1) t⟩ :
            TrendDataPoint))).map (·.period) = sortBy strLe (pi.map (·.1))
        rw [List.map_map]
        exact hfst
      · intro pt hpt
        obtain ⟨pd, hpd, rfl⟩ := List.mem_map.mp hpt
        obtain ⟨r, rs, hbl, hdate⟩ := hdates pd hpd
        refine ⟨r, ?_, hdate⟩
        have hpdk : pd.1 ∈ keys := by
          rw [← hpikeys]
          apply (mem_sortBy strLe pd.1 _).mp
          rw [← hfst]
          exact List.mem_map_of_mem _ hpd
        rw [hpi, bucketLookup_keyed items ptype pd.1 hpdk] at hbl
        have hrfil : r ∈ items.filter
            (fun r => periodOf ptype r = some pd.1) := by
          rw [hbl]
          exact List.mem_cons_self _ _
        have hritems : r ∈ items := (List.mem_filter.mp hrfil).1
        rw [hitems] at hritems
        have := (mem_sortBy _ r _).mp hritems
        exact (List.mem_filter.mp this).1

/-- C8 amended witness: one stored item, analyzed weekly, with a single
(hence duplicate-free) topic. -/
theorem trends_series_point_per_nonempty_bucket_witness :
    (∀ kv ∈ _get_items_by_time_period
        [{ url := "u1".toList, title := "t1".toList, published_date := none,
           summary := "s1".toList, source_type := "news".toList,
           publisher := none, section_name := "News".toList,
           quality_verdict := none, quality_confidence := none,
           quality_reason := none, quality_json := none,
           first_seen_date := "2024-01-01".toList,
           last_seen_date := "2024-01-01".toList, seen_count := 1 }]
        "2024-01-01".toList "2024-01-31".toList "week".toList, kv.2 ≠ []) ∧
    ∃ series,
      _build_time_series
        (_get_items_by_time_period
          [{ url := "u1".toList, title := "t1".toList, published_date := none,
             summary := "s1".toList, source_type := "news".toList,
             publisher := none, section_name := "News".toList,
             quality_verdict := none, quality_confidence := none,
             quality_reason := none, quality_json := none,
             first_seen_date := "2024-01-01".toList,
             last_seen_date := "2024-01-01".toList, seen_count := 1 }]
          "2024-01-01".toList "2024-01-31".toList "week".toList)
        ["zz".toList] "week".toList = some series ∧
      series.map (·.1) = ["zz".toList] ∧
      ∀ tp ∈ series,
        tp.2.map (·.period) =
          sortBy strLe ((_get_items_by_time_period
            [{ url := "u1".toList, title := "t1".toList, published_date := none,
               summary := "s1".toList, source_type := "news".toList,
               publisher := none, section_name := "News".toList,
               quality_verdict := none, quality_confidence := none,
               quality_reason := none, quality_json := none,
               first_seen_date := "2024-01-01".toList,
               last_seen_date := "2024-01-01".toList, seen_count := 1 }]
            "2024-01-01".toList "2024-01-31".toList "week".toList).map (·.1)) ∧
        ∀ pt ∈ tp.2, ∃ r ∈
          ([{ url := "u1".toList, title := "t1".toList, published_date := none,
              summary := "s1".toList, source_type := "news".toList,
              publisher := none, section_name := "News".toList,
              quality_verdict := none, quality_confidence := none,
              quality_reason := none, quality_json := none,
              first_seen_date := "2024-01-01".toList,
              last_seen_date := "2024-01-01".toList,
              seen_count := 1 }] : List StoredRecord),
          pt.date = r.first_seen_date :=
  trends_series_point_per_nonempty_bucket
    [{ url := "u1".toList, title := "t1".toList, published_date := none,
       summary := "s1".toList, source_type := "news".toList,
       publisher := none, section_name := "News".toList,
       quality_verdict := none, quality_confidence := none,
       quality_reason := none, quality_json := none,
       first_seen_date := "2024-01-01".toList,
       last_seen_date := "2024-01-01".toList, seen_count := 1 }]
    "2024-01-01".toList "2024-01-31".toList "week".toList
    ["zz".toList] (by decide)

/-! ## Supporting lemmas: character classes and non-JSON heads (C4) -/

theorem isReWs_eq_isPySpace : isReWs = isPySpace := rfl

theorem hasLead_append_self (pat t : List Char) : hasLead pat (pat ++ t) = true := by
  induction pat with
  | nil => rfl
  | cons a as ih => simp [hasLead, ih]

theorem hasLead_cons_ne {a b : Char} (h : a ≠ b) (as bs : List Char) :
    hasLead (a :: as) (b :: bs) = false := by
  simp [hasLead, h]

theorem skipWs_cons {c : Char} (h : isJsonWs c = false) (l : List Char) :
    skipWs (c :: l) = c :: l := by
  simp [skipWs, List.dropWhile_cons, h]

theorem skipReWs_cons {c : Char} (h : isReWs c = false) (l : List Char) :
    skipReWs (c :: l) = c :: l := by
  simp [skipReWs, List.dropWhile_cons, h]

theorem skipReWs_append (W l : List Char) (hW : ∀ c ∈ W, isReWs c = true) :
    skipReWs (W ++ l) = skipReWs l := by
  induction W with
  | nil => rfl
  | cons c W' ih =>
      have hc := hW c (by simp)
      simp only [List.cons_append, skipReWs, List.dropWhile_cons, hc, if_pos]
      exact ih (fun d hd => hW d (by simp [hd]))

theorem jsonStartChar_elim {c : Char} (h : jsonStartChar c = false) :
    c ≠ '{' ∧ c ≠ '[' ∧ c ≠ '"' ∧ c ≠ 't' ∧ c ≠ 'f' ∧ c ≠ 'n' ∧
      c ≠ '-' ∧ c.isDigit = false := by
  simp only [jsonStartChar, Bool.or_eq_false_iff, decide_eq_false_iff_not] at h
  exact ⟨h.1.1.1.1.1.1.1, h.1.1.1.1.1.1.2, h.1.1.1.1.1.2, h.1.1.1.1.2,
    h.1.1.1.2, h.1.1.2, h.1.2, h.2⟩

theorem isDigit_false_bounds {c : Char} (h : c.isDigit = false) :
    c ≠ '0' ∧ ¬('1' ≤ c ∧ c ≤ '9') := by
  constructor
  · rintro rfl
    exact absurd h (by decide)
  · rintro ⟨h1, h9⟩
    have h0 : '0' ≤ c := le_trans (by decide) h1
    have : c.isDigit = true := by
      unfold Char.isDigit
      simp only [Bool.and_eq_true, decide_eq_true_eq]
      exact ⟨h0, h9⟩
    rw [this] at h
    exact Bool.noConfusion h

theorem scanNumber_none_of_head {c : Char} (hm : c ≠ '-')
    (hd : c.isDigit = false) (t : List Char) : scanNumber (c :: t) = none := by
  obtain ⟨h0, h19⟩ := isDigit_false_bounds hd
  simp only [scanNumber, if_neg hm]
  simp only [intCore, if_neg h0, if_neg h19]

theorem scanValue_none_of_head {c : Char} (h : jsonStartChar c = false)
    (fuel : ℕ) (t : List Char) : scanValue fuel (c :: t) = none := by
  obtain ⟨h1, h2, h3, h4, h5, h6, h7, h8⟩ := jsonStartChar_elim h
  cases fuel with
  | zero => rfl
  | succ f =>
      simp only [scanValue, if_neg h1, if_neg h2, if_neg h3]
      rw [if_neg (by simp [hasLead_cons_ne (Ne.symm h4)]),
        if_neg (by simp [hasLead_cons_ne (Ne.symm h5)]),
        if_neg (by simp [hasLead_cons_ne (Ne.symm h6)])]
      rw [scanNumber_none_of_head h7 h8]
      rfl

theorem pyJsonLoads_none_of_head {c : Char} (hws : isJsonWs c = false)
    (h : jsonStartChar c = false) (t : List Char) :
    pyJsonLoads (c :: t) = none := by
  unfold pyJsonLoads
  rw [skipWs_cons hws, scanValue_none_of_head h]

theorem pyRawDecode_none_of_head {c : Char} (h : jsonStartChar c = false)
    (t : List Char) : pyRawDecode (c :: t) = none := by
  unfold pyRawDecode
  rw [scanValue_none_of_head h]
  rfl

theorem reverse_dropWhile_head (p : Char → Bool) (c : Char) (t : List Char) :
    ((c :: t).reverse.dropWhile p).reverse = [] ∨
      ∃ s2, ((c :: t).reverse.dropWhile p).reverse = c :: s2 := by
  obtain ⟨u, hu⟩ : ∃ u, u ++ (c :: t).reverse.dropWhile p = (c :: t).reverse :=
    ⟨_, List.takeWhile_append_dropWhile _ _⟩
  cases hd : ((c :: t).reverse.dropWhile p).reverse with
  | nil => exact Or.inl rfl
  | cons x xs =>
      refine Or.inr ⟨xs, ?_⟩
      have hrev : c :: t = x :: (xs ++ u.reverse) := by
        have h2 := congrArg List.reverse hu
        rw [List.reverse_append, List.reverse_reverse, hd] at h2
        simpa using h2.symm
      have hx : c = x := by
        have := congrArg List.head? hrev
        simpa using this
      subst hx
      rfl

theorem takeToLastBrace_some_head {c : Char} {t s : List Char}
    (h : takeToLastBrace (c :: t) = some s) : ∃ s2, s = c :: s2 := by
  unfold takeToLastBrace at h
  rcases reverse_dropWhile_head (· ≠ '}') c t with hnil | ⟨s2, hs2⟩
  · have hr : (c :: t).reverse.dropWhile (· ≠ '}') = [] := by
      simpa using congrArg List.reverse hnil
    rw [if_pos hr] at h
    exact Option.noConfusion h
  · have hr : ¬((c :: t).reverse.dropWhile (· ≠ '}') = []) := by
      intro h0
      rw [h0] at hs2
      exact List.noConfusion hs2
    rw [if_neg hr] at h
    injection h with h2
    exact ⟨s2, by rw [← h2, hs2]⟩

/-! ## Supporting lemmas: `pyStrip` decomposition (C4) -/

theorem dropWhile_append_left (p : Char → Bool) (P F : List Char)
    (hF : F.dropWhile p = F) : (P ++ F).dropWhile p = P.dropWhile p ++ F := by
  induction P with
  | nil => simpa using hF
  | cons c P' ih =>
      by_cases hc : p c
      · simpa [List.dropWhile_cons, hc] using ih
      · simp [List.dropWhile_cons, hc]

theorem rstripBy_append_getLast (p : Char → Bool) (a b : List Char) {c : Char}
    (h : a.getLast? = some c) (hc : p c = false) :
    rstripBy p (a ++ b) = a ++ rstripBy p b := by
  have hhead : a.reverse.head? = some c := by rw [List.head?_reverse]; exact h
  obtain ⟨t2, ht2⟩ : ∃ t2, a.reverse = c :: t2 := by
    cases ha : a.reverse with
    | nil => rw [ha] at hhead; exact absurd hhead (by simp)
    | cons x xs =>
        rw [ha] at hhead
        simp only [List.head?_cons] at hhead
        injection hhead with hx
        refine ⟨xs, ?_⟩
        subst hx
        rfl
  have hdw : a.reverse.dropWhile p = a.reverse := by
    rw [ht2, List.dropWhile_cons, if_neg (by simp [hc])]
  unfold rstripBy
  rw [List.reverse_append, List.dropWhile_append]
  by_cases hb : (b.reverse.dropWhile p).isEmpty
  · rw [if_pos hb, hdw, List.reverse_reverse]
    have : b.reverse.dropWhile p = [] := by simpa using hb
    rw [this]
    simp
  · rw [if_neg hb, List.reverse_append, List.reverse_reverse]

/-! ## Supporting lemmas: decimal round-trips (C4) -/

theorem digitsAux_eq_digits : ∀ f n, n ≤ f → digitsAux f n = Nat.digits 10 n := by
  intro f
  induction f with
  | zero =>
      intro n hn
      have h0 : n = 0 := by omega
      subst h0
      simp [digitsAux]
  | succ f ih =>
      intro n hn
      by_cases h0 : n = 0
      · subst h0
        simp [digitsAux]
      · rw [digitsAux, if_neg h0,
          Nat.digits_def' (by norm_num : 2 ≤ 10) (Nat.pos_of_ne_zero h0)]
        congr 1
        exact ih (n / 10) (by omega)

theorem toNat_ofNat_digit {d : ℕ} (hd : d < 10) :
    (Char.ofNat (48 + d)).toNat = 48 + d := by
  interval_cases d <;> decide

theorem foldl_digits_chars (L : List ℕ) (hL : ∀ d ∈ L, d < 10) :
    ∀ a : ℕ, List.foldl (fun a c => 10 * a + (c.toNat - 48)) a
      (L.reverse.map (fun d => Char.ofNat (48 + d)))
      = a * 10 ^ L.length + Nat.ofDigits 10 L := by
  induction L with
  | nil => intro a; simp
  | cons d L' ih =>
      intro a
      have hd10 : d < 10 := hL d (by simp)
      rw [List.reverse_cons, List.map_append, List.foldl_append]
      rw [ih (fun x hx => hL x (by simp [hx])) a]
      simp only [List.map_cons, List.map_nil, List.foldl_cons, List.foldl_nil]
      rw [toNat_ofNat_digit hd10]
      rw [Nat.ofDigits_cons]
      simp only [List.length_cons]
      ring_nf
      omega

theorem charsToNat_natToChars (n : ℕ) : charsToNat (natToChars n) = n := by
  unfold charsToNat natToChars
  rw [digitsAux_eq_digits n n le_rfl]
  rw [foldl_digits_chars (Nat.digits 10 n)
    (fun d hd => Nat.digits_lt_base (by norm_num) hd) 0]
  simp [Nat.ofDigits_digits]

theorem charsToNat_natStr (n : ℕ) : charsToNat (natStr n) = n := by
  unfold natStr
  by_cases h : n = 0
  · subst h; decide
  · rw [if_neg h]
    exact charsToNat_natToChars n

theorem natStr_all_digit (n : ℕ) : ∀ c ∈ natStr n, c.isDigit = true := by
  unfold natStr
  by_cases h : n = 0
  · subst h
    intro c hc
    simp at hc
    subst hc
    decide
  · rw [if_neg h]
    intro c hc
    unfold natToChars at hc
    rw [digitsAux_eq_digits n n le_rfl] at hc
    obtain ⟨d, hd, rfl⟩ := List.mem_map.mp hc
    have hd10 : d < 10 := Nat.digits_lt_base (by norm_num) (List.mem_reverse.mp hd)
    interval_cases d <;> decide

theorem natStr_head (n : ℕ) : ∃ c cs, natStr n = c :: cs ∧
    ((n = 0 ∧ c = '0' ∧ cs = []) ∨ ('1' ≤ c ∧ c ≤ '9')) := by
  by_cases h : n = 0
  · subst h
    exact ⟨'0', [], rfl, Or.inl ⟨rfl, rfl, rfl⟩⟩
  · have hLne : Nat.digits 10 n ≠ [] := Nat.digits_ne_nil_iff_ne_zero.mpr h
    obtain ⟨dl, drest, hrev⟩ : ∃ dl drest,
        (Nat.digits 10 n).reverse = dl :: drest := by
      cases hr : (Nat.digits 10 n).reverse with
      | nil => exact absurd (by simpa using congrArg List.reverse hr) hLne
      | cons a b => exact ⟨a, b, rfl⟩
    have hdl_mem : dl ∈ Nat.digits 10 n := by
      rw [← List.mem_reverse, hrev]
      simp
    have hdl10 : dl < 10 := Nat.digits_lt_base (by norm_num) hdl_mem
    have hdl0 : dl ≠ 0 := by
      have hgl : (Nat.digits 10 n).getLast? = some dl := by
        rw [← List.head?_reverse, hrev, List.head?_cons]
      rw [List.getLast?_eq_getLast _ hLne] at hgl
      injection hgl with h2
      rw [← h2]
      exact Nat.getLast_digit_ne_zero 10 h
    refine ⟨Char.ofNat (48 + dl), drest.map (fun d => Char.ofNat (48 + d)), ?_, ?_⟩
    · rw [natStr, if_neg h]
      unfold natToChars
      rw [digitsAux_eq_digits n n le_rfl, hrev, List.map_cons]
    · right
      have h1 : 1 ≤ dl := Nat.pos_of_ne_zero hdl0
      interval_cases dl <;> exact ⟨by decide, by decide⟩

theorem numSafe_elim {l : List Char} (h : numSafe l = true) :
    floatCont l = false ∧ ∀ c t, l = c :: t → c.isDigit = false := by
  unfold numSafe at h
  rw [Bool.and_eq_true] at h
  refine ⟨by simpa using h.1, ?_⟩
  intro c t hl
  subst hl
  simpa using h.2

theorem intCore_natStr (m : ℕ) (rest : List Char) (hr : numSafe rest = true) :
    intCore (natStr m ++ rest) = some (m, rest) := by
  obtain ⟨c, cs, hm, hcase⟩ := natStr_head m
  have halldig : ∀ x ∈ cs, x.isDigit = true := by
    intro x hx
    exact natStr_all_digit m x (by rw [hm]; simp [hx])
  have htw : (cs ++ rest).takeWhile Char.isDigit = cs := by
    cases hrest : rest with
    | nil =>
        rw [List.append_nil]
        exact List.takeWhile_eq_self_iff.mpr halldig
    | cons r0 rt =>
        have hr0 : Char.isDigit r0 = false :=
          (numSafe_elim hr).2 r0 rt hrest
        exact takeWhile_append_of_all Char.isDigit cs r0 rt halldig hr0
  have hdw : (cs ++ rest).dropWhile Char.isDigit = rest := by
    cases hrest : rest with
    | nil =>
        rw [List.append_nil]
        exact List.dropWhile_eq_nil_iff.mpr halldig
    | cons r0 rt =>
        have hr0 : Char.isDigit r0 = false :=
          (numSafe_elim hr).2 r0 rt hrest
        exact dropWhile_append_of_all Char.isDigit cs r0 rt halldig hr0
  rcases hcase with ⟨h0, hc, hcs⟩ | ⟨h1, h9⟩
  · subst h0
    subst hc
    subst hcs
    rw [hm]
    simp only [List.cons_append, List.nil_append, intCore, if_pos]
  · rw [hm]
    simp only [List.cons_append]
    have hc0 : ¬(c = '0') := by
      intro hcq
      subst hcq
      exact absurd h1 (by decide)
    simp only [intCore, if_neg hc0, if_pos (⟨h1, h9⟩ : '1' ≤ c ∧ c ≤ '9')]
    rw [htw, hdw]
    rw [show c :: cs = natStr m from hm.symm, charsToNat_natStr]

theorem natStr_head_not_dash (m : ℕ) {c : Char} {cs : List Char}
    (hm : natStr m = c :: cs) : ¬(c = '-') := by
  intro hdash
  subst hdash
  have := natStr_all_digit m '-' (by rw [hm]; simp)
  exact absurd this (by decide)

theorem scanNumber_intToChars (n : Int) (rest : List Char)
    (hr : numSafe rest = true) :
    scanNumber (intToChars n ++ rest) = some (n, rest) := by
  have hfc : floatCont rest = false := (numSafe_elim hr).1
  unfold intToChars
  by_cases hneg : n < 0
  · rw [if_pos hneg]
    simp only [List.cons_append, scanNumber, if_pos]
    rw [intCore_natStr _ rest hr]
    dsimp only
    rw [if_neg (show ¬(floatCont rest = true) by simp [hfc])]
    have h2 : (((-n).toNat : Int)) = -n := Int.toNat_of_nonneg (by omega)
    rw [h2]
    simp
  · rw [if_neg hneg]
    obtain ⟨c, cs, hm, _⟩ := natStr_head n.toNat
    rw [hm]
    simp only [List.cons_append, scanNumber]
    rw [if_neg (natStr_head_not_dash n.toNat hm)]
    rw [show c :: (cs ++ rest) = natStr n.toNat ++ rest by
      rw [← List.cons_append, hm]]
    rw [intCore_natStr _ rest hr]
    dsimp only
    rw [if_neg (show ¬(floatCont rest = true) by simp [hfc])]
    rw [Int.toNat_of_nonneg (by omega)]

/-! ## Supporting lemmas: clean strings scan back (C4) -/

theorem cleanChar_elim {c : Char} (h : cleanChar c = true) :
    32 ≤ c.toNat ∧ c ≠ '"' ∧ c ≠ '\\' ∧ c ≠ '{' ∧ c ≠ '}' := by
  unfold cleanChar at h
  simp only [Bool.and_eq_true, decide_eq_true_eq] at h
  exact ⟨h.1.1.1.1, h.1.1.1.2, h.1.1.2, h.1.2, h.2⟩

theorem cleanStr_cons {c : Char} {s : List Char}
    (h : cleanStr (c :: s) = true) : cleanChar c = true ∧ cleanStr s = true := by
  unfold cleanStr at h ⊢
  rw [List.all_cons, Bool.and_eq_true] at h
  exact h

theorem scanString_quote (rest : List Char) :
    scanString ('"' :: rest) = some ([], rest) := by
  rw [scanString.eq_def]
  dsimp only
  rw [if_pos rfl]

theorem scanString_plain {c : Char} (hq : c ≠ '"') (hbs : c ≠ '\\')
    (h32 : ¬(c.toNat < 32)) (X : List Char) :
    scanString (c :: X) = (scanString X).map (fun p => (c :: p.1, p.2)) := by
  rw [scanString.eq_def]
  dsimp only
  rw [if_neg hq, if_neg hbs, if_neg h32]

theorem scanString_clean (s : List Char) (hs : cleanStr s = true)
    (rest : List Char) : scanString (s ++ '"' :: rest) = some (s, rest) := by
  induction s with
  | nil => exact scanString_quote rest
  | cons c s' ih =>
      obtain ⟨hcc, hs'⟩ := cleanStr_cons hs
      obtain ⟨h32, hq, hbs, _, _⟩ := cleanChar_elim hcc
      rw [List.cons_append, scanString_plain hq hbs (by omega)]
      rw [ih hs']
      rfl

/-! ## Supporting lemmas: serializer structure (C4) -/

theorem isDigit_not_ws {c : Char} (h : c.isDigit = true) : isJsonWs c = false := by
  cases hw : isJsonWs c
  · rfl
  · exfalso
    unfold isJsonWs at hw
    simp only [Bool.or_eq_true, decide_eq_true_eq] at hw
    rcases hw with ((h1 | h1) | h1) | h1 <;> (subst h1; exact absurd h (by decide))

theorem isDigit_ne {c : Char} (h : c.isDigit = true) {d : Char}
    (hd : d.isDigit = false) : c ≠ d := by
  intro he
  subst he
  rw [h] at hd
  exact Bool.noConfusion hd

theorem jsonStart_props {c : Char} (h : jsonStartChar c = true) :
    isJsonWs c = false ∧ c ≠ ']' := by
  unfold jsonStartChar at h
  simp only [Bool.or_eq_true, decide_eq_true_eq] at h
  rcases h with ((((((h | h) | h) | h) | h) | h) | h) | h
  · subst h; exact ⟨by decide, by decide⟩
  · subst h; exact ⟨by decide, by decide⟩
  · subst h; exact ⟨by decide, by decide⟩
  · subst h; exact ⟨by decide, by decide⟩
  · subst h; exact ⟨by decide, by decide⟩
  · subst h; exact ⟨by decide, by decide⟩
  · subst h; exact ⟨by decide, by decide⟩
  · exact ⟨isDigit_not_ws h, isDigit_ne h (by decide)⟩

theorem intToChars_head (n : Int) : ∃ c cs, intToChars n = c :: cs ∧
    jsonStartChar c = true ∧ (c = '-' ∨ c.isDigit = true) := by
  unfold intToChars
  by_cases hneg : n < 0
  · exact ⟨'-', _, by rw [if_pos hneg], by decide, Or.inl rfl⟩
  · obtain ⟨c, cs, hm, hcase⟩ := natStr_head n.toNat
    have hdig : c.isDigit = true := natStr_all_digit n.toNat c (by rw [hm]; simp)
    refine ⟨c, cs, by rw [if_neg hneg, hm], ?_, Or.inr hdig⟩
    unfold jsonStartChar
    rw [hdig]
    simp

theorem serialize_head (j : Json) : ∃ c cs, serialize j = c :: cs ∧
    jsonStartChar c = true := by
  cases j with
  | null => exact ⟨'n', _, rfl, by decide⟩
  | bool b => cases b with
      | true => exact ⟨'t', _, rfl, by decide⟩
      | false => exact ⟨'f', _, rfl, by decide⟩
  | num n =>
      obtain ⟨c, cs, hm, hc, _⟩ := intToChars_head n
      exact ⟨c, cs, hm, hc⟩
  | str s => exact ⟨'"', _, rfl, by decide⟩
  | arr es => exact ⟨'[', _, rfl, by decide⟩
  | obj fs => exact ⟨'{', _, rfl, by decide⟩

theorem skipWs_serialize (j : Json) (X : List Char) :
    skipWs (serialize j ++ X) = serialize j ++ X := by
  obtain ⟨c, cs, hm, hc⟩ := serialize_head j
  rw [hm, List.cons_append, skipWs_cons (jsonStart_props hc).1]

theorem serFields_eq_serMembers : ∀ tl k v,
    serFields (.cons k v tl) = '"' :: serMembers (.cons k v tl) := by
  intro tl
  cases tl with
  | nil => intro k v; rfl
  | cons k2 v2 tl2 =>
      intro k v
      show '"' :: k ++ '"' :: ':' :: serialize v ++
          ',' :: serFields (.cons k2 v2 tl2) = _
      rw [serFields_eq_serMembers tl2 k2 v2]
      show _ = '"' :: (k ++ '"' :: ':' :: serialize v ++
          ',' :: '"' :: serMembers (.cons k2 v2 tl2))
      simp

/-! ## Supporting lemmas: `dict(pairs)` on distinct keys (C4) -/

theorem fAppend_nil (a : JsonFields) : fAppend a .nil = a := by
  cases a with
  | nil => rfl
  | cons k v tl => rw [fAppend, fAppend_nil tl]

theorem fAppend_assoc (a b c : JsonFields) :
    fAppend (fAppend a b) c = fAppend a (fAppend b c) := by
  cases a with
  | nil => rfl
  | cons k v tl => rw [fAppend, fAppend, fAppend_assoc tl b c, fAppend]

theorem fieldsHasKey_fAppend (a b : JsonFields) (k : List Char) :
    fieldsHasKey (fAppend a b) k = (fieldsHasKey a k || fieldsHasKey b k) := by
  cases a with
  | nil => rfl
  | cons k0 v0 tl =>
      rw [fAppend, fieldsHasKey, fieldsHasKey_fAppend tl b k, fieldsHasKey,
        Bool.or_assoc]

theorem fieldsSet_fresh (a : JsonFields) (k : List Char) (v : Json)
    (h : fieldsHasKey a k = false) :
    fieldsSet a k v = fAppend a (.cons k v .nil) := by
  cases a with
  | nil => rfl
  | cons k0 v0 tl =>
      rw [fieldsHasKey, Bool.or_eq_false_iff] at h
      have hne : ¬(k0 = k) := by simpa using h.1
      rw [fieldsSet, if_neg hne, fAppend, fieldsSet_fresh tl k v h.2]

theorem cleanFields_cons {k : List Char} {v : Json} {tl : JsonFields}
    (h : cleanFields (.cons k v tl) = true) :
    cleanStr k = true ∧ fieldsHasKey tl k = false ∧ cleanVal v = true ∧
      cleanFields tl = true := by
  unfold cleanFields at h
  simp only [Bool.and_eq_true, Bool.not_eq_true'] at h
  exact ⟨h.1.1.1, h.1.1.2, h.1.2, h.2⟩

theorem dictGo_fresh : ∀ fs acc, cleanFields fs = true →
    (∀ k2, fieldsHasKey acc k2 = true → fieldsHasKey fs k2 = false) →
    dictOfPairs.go acc fs = fAppend acc fs := by
  intro fs
  cases fs with
  | nil =>
      intro acc _ _
      rw [fAppend_nil]
      rfl
  | cons k v tl =>
      intro acc hcf hdisj
      obtain ⟨hk, hfresh, hv, htl⟩ := cleanFields_cons hcf
      have hacck : fieldsHasKey acc k = false := by
        cases hca : fieldsHasKey acc k
        · rfl
        · have h2 := hdisj k hca
          rw [fieldsHasKey] at h2
          simp at h2
      rw [dictOfPairs.go, fieldsSet_fresh acc k v hacck]
      rw [dictGo_fresh tl (fAppend acc (.cons k v .nil)) htl ?_]
      · rw [fAppend_assoc]
        rfl
      · intro k2 hk2
        rw [fieldsHasKey_fAppend, Bool.or_eq_true] at hk2
        rcases hk2 with hk2 | hk2
        · have h2 := hdisj k2 hk2
          rw [fieldsHasKey, Bool.or_eq_false_iff] at h2
          exact h2.2
        · rw [fieldsHasKey, fieldsHasKey, Bool.or_eq_true] at hk2
          rcases hk2 with hk2 | hk2
          · have hkk : k = k2 := by simpa using hk2
            rw [← hkk]
            exact hfresh
          · exact Bool.noConfusion hk2

theorem dictOfPairs_id (fs : JsonFields) (h : cleanFields fs = true) :
    dictOfPairs fs = fs := by
  unfold dictOfPairs
  rw [dictGo_fresh fs .nil h (fun k2 hk2 => absurd hk2 (by simp [fieldsHasKey]))]
  rfl

/-! ## Supporting lemmas: parse cost of a serialized value (C4) -/

theorem intToChars_length_pos (n : Int) : 1 ≤ (intToChars n).length := by
  obtain ⟨c, cs, hm, _, _⟩ := intToChars_head n
  rw [hm]
  simp

mutual
theorem sizeV_le (j : Json) : sizeV j ≤ 2 * (serialize j).length := by
  cases j with
  | null => simp [sizeV, serialize]
  | bool b => cases b <;> simp [sizeV, serialize]
  | num n =>
      have := intToChars_length_pos n
      show 1 ≤ 2 * (intToChars n).length
      omega
  | str s => simp [sizeV, serialize]; omega
  | arr es =>
      have h := sizeL_le es
      show 1 + sizeL es ≤ 2 * ('[' :: serElems es ++ [']']).length
      simp only [List.length_append, List.length_cons, List.length_nil]
      omega
  | obj fs =>
      have h := sizeF_le fs
      show 1 + sizeF fs ≤ 2 * ('{' :: serFields fs ++ ['}']).length
      simp only [List.length_append, List.length_cons, List.length_nil]
      omega
theorem sizeL_le (es : JsonList) : sizeL es ≤ 1 + 2 * (serElems es).length := by
  cases es with
  | nil => simp [sizeL]
  | cons v tl =>
      have hv := sizeV_le v
      cases tl with
      | nil =>
          show 1 + sizeV v + sizeL .nil ≤ 1 + 2 * (serialize v).length
          simp only [sizeL]
          omega
      | cons w tl2 =>
          have htl := sizeL_le (JsonList.cons w tl2)
          show 1 + sizeV v + sizeL (JsonList.cons w tl2) ≤
            1 + 2 * (serialize v ++ ',' :: serElems (JsonList.cons w tl2)).length
          simp only [List.length_append, List.length_cons]
          omega
theorem sizeF_le (fs : JsonFields) : sizeF fs ≤ 1 + 2 * (serFields fs).length := by
  cases fs with
  | nil => simp [sizeF]
  | cons k v tl =>
      have hv := sizeV_le v
      cases tl with
      | nil =>
          show 1 + sizeV v + sizeF .nil ≤
            1 + 2 * ('"' :: k ++ '"' :: ':' :: serialize v).length
          simp only [sizeF, List.length_append, List.length_cons]
          omega
      | cons k2 v2 tl2 =>
          have htl := sizeF_le (JsonFields.cons k2 v2 tl2)
          show 1 + sizeV v + sizeF (JsonFields.cons k2 v2 tl2) ≤
            1 + 2 * ('"' :: k ++ '"' :: ':' :: serialize v ++
              ',' :: serFields (JsonFields.cons k2 v2 tl2)).length
          simp only [List.length_append, List.length_cons]
          omega
end

/-! ## Supporting lemmas: the scanner re-reads a serialized value (C4) -/

theorem sizeV_pos (j : Json) : 1 ≤ sizeV j := by
  cases j with
  | null => exact le_refl 1
  | bool b => exact le_refl 1
  | num n => exact le_refl 1
  | str s => exact le_refl 1
  | arr es => show 1 ≤ 1 + sizeL es; omega
  | obj fs => show 1 ≤ 1 + sizeF fs; omega

theorem sizeL_cons_pos (v : Json) (tl : JsonList) : 1 ≤ sizeL (.cons v tl) := by
  show 1 ≤ 1 + sizeV v + sizeL tl
  omega

theorem sizeF_cons_pos (k : List Char) (v : Json) (tl : JsonFields) :
    1 ≤ sizeF (.cons k v tl) := by
  show 1 ≤ 1 + sizeV v + sizeF tl
  omega

theorem num_head_ne {c : Char} (hor : c = '-' ∨ c.isDigit = true) :
    c ≠ '{' ∧ c ≠ '[' ∧ c ≠ '"' ∧ c ≠ 't' ∧ c ≠ 'f' ∧ c ≠ 'n' := by
  rcases hor with h | h
  · subst h
    exact ⟨by decide, by decide, by decide, by decide, by decide, by decide⟩
  · exact ⟨isDigit_ne h (by decide), isDigit_ne h (by decide),
      isDigit_ne h (by decide), isDigit_ne h (by decide),
      isDigit_ne h (by decide), isDigit_ne h (by decide)⟩

theorem serElems_cons_eq (v : Json) (tl : JsonList) :
    ∃ T, serElems (.cons v tl) = serialize v ++ T := by
  cases tl with
  | nil => exact ⟨[], (List.append_nil _).symm⟩
  | cons w tl2 => exact ⟨',' :: serElems (.cons w tl2), rfl⟩

theorem serElems_cons_head (v : Json) (tl : JsonList) :
    ∃ c cs, serElems (.cons v tl) = c :: cs ∧ jsonStartChar c = true := by
  obtain ⟨T, hT⟩ := serElems_cons_eq v tl
  obtain ⟨c, cs, hcv, hstart⟩ := serialize_head v
  exact ⟨c, cs ++ T, by rw [hT, hcv, List.cons_append], hstart⟩

mutual

theorem roundV (j : Json) (hc : cleanVal j = true) (fuel : ℕ) (rest : List Char)
    (hf : sizeV j ≤ fuel) (hr : numSafe rest = true) :
    scanValue fuel (serialize j ++ rest) = some (j, rest) := by
  obtain ⟨f, rfl⟩ : ∃ f, fuel = f + 1 :=
    ⟨fuel - 1, by have := sizeV_pos j; omega⟩
  cases j with
  | null =>
      show scanValue (f + 1) ('n' :: 'u' :: 'l' :: 'l' :: rest) = _
      rw [scanValue.eq_def]
      dsimp only
      simp [hasLead]
  | bool b =>
      cases b with
      | true =>
          show scanValue (f + 1) ('t' :: 'r' :: 'u' :: 'e' :: rest) = _
          rw [scanValue.eq_def]
          dsimp only
          simp [hasLead]
      | false =>
          show scanValue (f + 1) ('f' :: 'a' :: 'l' :: 's' :: 'e' :: rest) = _
          rw [scanValue.eq_def]
          dsimp only
          simp [hasLead]
  | num n =>
      obtain ⟨c, cs, hm, hstart, hor⟩ := intToChars_head n
      obtain ⟨g1, g2, g3, g4, g5, g6⟩ := num_head_ne hor
      have hser : serialize (Json.num n) ++ rest = c :: (cs ++ rest) := by
        show intToChars n ++ rest = _
        rw [hm, List.cons_append]
      rw [hser, scanValue.eq_def]
      dsimp only
      rw [if_neg g1, if_neg g2, if_neg g3]
      rw [if_neg (show ¬(hasLead ['t', 'r', 'u', 'e'] (c :: (cs ++ rest)) = true) by
            simp [hasLead_cons_ne (Ne.symm g4)]),
        if_neg (show ¬(hasLead ['f', 'a', 'l', 's', 'e'] (c :: (cs ++ rest)) = true) by
            simp [hasLead_cons_ne (Ne.symm g5)]),
        if_neg (show ¬(hasLead ['n', 'u', 'l', 'l'] (c :: (cs ++ rest)) = true) by
            simp [hasLead_cons_ne (Ne.symm g6)])]
      rw [show c :: (cs ++ rest) = intToChars n ++ rest by
        rw [hm, List.cons_append]]
      rw [scanNumber_intToChars n rest hr]
      rfl
  | str s =>
      have hser : serialize (Json.str s) ++ rest = '"' :: (s ++ '"' :: rest) := by
        show ('"' :: (s ++ ['"'])) ++ rest = _
        simp
      rw [hser, scanValue.eq_def]
      dsimp only
      rw [if_neg (by decide), if_neg (by decide), if_pos rfl]
      rw [scanString_clean s hc rest]
      rfl
  | arr es =>
      cases es with
      | nil =>
          show scanValue (f + 1) ('[' :: ']' :: rest) = _
          rw [scanValue.eq_def]
          dsimp only
          rw [if_neg (by decide), if_pos rfl]
          rfl
      | cons v tl =>
          have hser : serialize (Json.arr (.cons v tl)) ++ rest =
              '[' :: (serElems (.cons v tl) ++ ']' :: rest) := by
            show ('[' :: (serElems (.cons v tl) ++ [']'])) ++ rest = _
            simp
          rw [hser, scanValue.eq_def]
          dsimp only
          rw [if_neg (by decide), if_pos rfl]
          obtain ⟨c, cs, hE, hstart⟩ := serElems_cons_head v tl
          have hskip : skipWs (serElems (.cons v tl) ++ ']' :: rest) =
              serElems (.cons v tl) ++ ']' :: rest := by
            rw [hE, List.cons_append, skipWs_cons (jsonStart_props hstart).1]
          split
          · next r2 heq =>
              rw [hskip, hE, List.cons_append] at heq
              exact absurd (List.head_eq_of_cons_eq heq) (jsonStart_props hstart).2
          · next r' heq =>
              rw [hskip]
              have hfl : sizeL (JsonList.cons v tl) ≤ f := by
                have h2 : sizeV (Json.arr (.cons v tl)) = 1 + sizeL (.cons v tl) := rfl
                omega
              rw [roundE (.cons v tl) (fun h2 => JsonList.noConfusion h2) hc f rest hfl]
              rfl
  | obj fs =>
      cases fs with
      | nil =>
          show scanValue (f + 1) ('{' :: '}' :: rest) = _
          rw [scanValue.eq_def]
          dsimp only
          rw [if_pos rfl]
          rfl
      | cons k v tl =>
          have hser : serialize (Json.obj (.cons k v tl)) ++ rest =
              '{' :: ('"' :: (serMembers (.cons k v tl) ++ '}' :: rest)) := by
            show ('{' :: (serFields (.cons k v tl) ++ ['}'])) ++ rest = _
            rw [serFields_eq_serMembers]
            simp
          rw [hser, scanValue.eq_def]
          dsimp only
          rw [if_pos rfl]
          have hskip : skipWs ('"' :: (serMembers (.cons k v tl) ++ '}' :: rest)) =
              '"' :: (serMembers (.cons k v tl) ++ '}' :: rest) :=
            skipWs_cons (by decide) _
          split
          · next r2 heq =>
              rw [hskip] at heq
              exact absurd (List.head_eq_of_cons_eq heq) (by decide)
          · next r2 heq =>
              rw [hskip] at heq
              have h5 : serMembers (.cons k v tl) ++ '}' :: rest = r2 :=
                List.tail_eq_of_cons_eq heq
              subst h5
              have hff : sizeF (JsonFields.cons k v tl) ≤ f := by
                have h2 : sizeV (Json.obj (.cons k v tl)) = 1 + sizeF (.cons k v tl) := rfl
                omega
              rw [roundM (.cons k v tl) (fun h2 => JsonFields.noConfusion h2) hc f rest hff]
              dsimp only [Option.map]
              rw [dictOfPairs_id _ hc]
          · next h1 h2 =>
              exact absurd hskip (fun h3 => h2 _ h3)

theorem roundE (es : JsonList) (hne : es ≠ .nil) (hc : cleanList es = true)
    (fuel : ℕ) (rest : List Char) (hf : sizeL es ≤ fuel) :
    scanElems fuel (serElems es ++ ']' :: rest) = some (es, rest) := by
  obtain ⟨v, tl, rfl⟩ : ∃ v tl, es = .cons v tl := by
    cases es with
    | nil => exact absurd rfl hne
    | cons v tl => exact ⟨v, tl, rfl⟩
  obtain ⟨f, rfl⟩ : ∃ f, fuel = f + 1 :=
    ⟨fuel - 1, by have := sizeL_cons_pos v tl; omega⟩
  have hcs : cleanVal v = true ∧ cleanList tl = true := by
    have h2 : cleanList (.cons v tl) = (cleanVal v && cleanList tl) := rfl
    rw [h2, Bool.and_eq_true] at hc
    exact hc
  have hszv : sizeV v ≤ f := by
    have h2 : sizeL (JsonList.cons v tl) = 1 + sizeV v + sizeL tl := rfl
    omega
  rw [scanElems.eq_def]
  dsimp only
  cases tl with
  | nil =>
      have hl : serElems (.cons v .nil) ++ ']' :: rest =
          serialize v ++ ']' :: rest := rfl
      split
      · next heq =>
          rw [hl, roundV v hcs.1 f (']' :: rest) hszv rfl] at heq
          exact Option.noConfusion heq
      · next v2 r1 heq =>
          rw [hl, roundV v hcs.1 f (']' :: rest) hszv rfl] at heq
          injection heq with h2
          rw [Prod.mk.injEq] at h2
          obtain ⟨h3, h4⟩ := h2
          subst h3
          subst h4
          rfl
  | cons w tl2 =>
      have hl : serElems (.cons v (.cons w tl2)) ++ ']' :: rest =
          serialize v ++ (',' :: (serElems (.cons w tl2) ++ ']' :: rest)) := by
        show (serialize v ++ ',' :: serElems (.cons w tl2)) ++ ']' :: rest = _
        simp
      have hftl : sizeL (JsonList.cons w tl2) ≤ f := by
        have h2 : sizeL (JsonList.cons v (.cons w tl2)) =
            1 + sizeV v + sizeL (.cons w tl2) := rfl
        omega
      split
      · next heq =>
          rw [hl, roundV v hcs.1 f
            (',' :: (serElems (.cons w tl2) ++ ']' :: rest)) hszv rfl] at heq
          exact Option.noConfusion heq
      · next v2 r1 heq =>
          rw [hl, roundV v hcs.1 f
            (',' :: (serElems (.cons w tl2) ++ ']' :: rest)) hszv rfl] at heq
          injection heq with h2
          rw [Prod.mk.injEq] at h2
          obtain ⟨h3, h4⟩ := h2
          subst h3
          subst h4
          split
          · next r3 heq2 =>
              rw [skipWs_cons (by decide)] at heq2
              have h5 : serElems (.cons w tl2) ++ ']' :: rest = r3 :=
                List.tail_eq_of_cons_eq heq2
              subst h5
              obtain ⟨c, cs, hE, hstart⟩ := serElems_cons_head w tl2
              have hskip3 : skipWs (serElems (.cons w tl2) ++ ']' :: rest) =
                  serElems (.cons w tl2) ++ ']' :: rest := by
                rw [hE, List.cons_append, skipWs_cons (jsonStart_props hstart).1]
              split
              · next vs r4 heq3 =>
                  rw [hskip3,
                    roundE (.cons w tl2) (fun h6 => JsonList.noConfusion h6)
                      hcs.2 f rest hftl] at heq3
                  injection heq3 with h6
                  rw [Prod.mk.injEq] at h6
                  obtain ⟨h7, h8⟩ := h6
                  subst h7
                  subst h8
                  rfl
              · next heq3 =>
                  rw [hskip3,
                    roundE (.cons w tl2) (fun h6 => JsonList.noConfusion h6)
                      hcs.2 f rest hftl] at heq3
                  exact Option.noConfusion heq3
          · next r3 heq2 =>
              rw [skipWs_cons (by decide)] at heq2
              exact absurd (List.head_eq_of_cons_eq heq2) (by decide)
          · next h5 h6 =>
              exact absurd (skipWs_cons (by decide) _) (fun h7 => h5 _ h7)

theorem roundM (fs : JsonFields) (hne : fs ≠ .nil) (hc : cleanFields fs = true)
    (fuel : ℕ) (rest : List Char) (hf : sizeF fs ≤ fuel) :
    scanMembers fuel (serMembers fs ++ '}' :: rest) = some (fs, rest) := by
  obtain ⟨k, v, tl, rfl⟩ : ∃ k v tl, fs = .cons k v tl := by
    cases fs with
    | nil => exact absurd rfl hne
    | cons k v tl => exact ⟨k, v, tl, rfl⟩
  obtain ⟨f, rfl⟩ : ∃ f, fuel = f + 1 :=
    ⟨fuel - 1, by have := sizeF_cons_pos k v tl; omega⟩
  obtain ⟨hk, hfresh, hv, htl⟩ := cleanFields_cons hc
  have hszv : sizeV v ≤ f := by
    have h2 : sizeF (JsonFields.cons k v tl) = 1 + sizeV v + sizeF tl := rfl
    omega
  rw [scanMembers.eq_def]
  dsimp only
  cases tl with
  | nil =>
      have hl : serMembers (.cons k v .nil) ++ '}' :: rest =
          k ++ '"' :: (':' :: (serialize v ++ '}' :: rest)) := by
        show (k ++ '"' :: ':' :: serialize v) ++ '}' :: rest = _
        simp
      split
      · next heq =>
          rw [hl, scanString_clean k hk] at heq
          exact Option.noConfusion heq
      · next key r1 heq =>
          rw [hl, scanString_clean k hk] at heq
          injection heq with h2
          rw [Prod.mk.injEq] at h2
          obtain ⟨h3, h4⟩ := h2
          subst h3
          subst h4
          split
          · next r3 heq2 =>
              rw [skipWs_cons (by decide)] at heq2
              have h5 : serialize v ++ '}' :: rest = r3 :=
                List.tail_eq_of_cons_eq heq2
              subst h5
              split
              · next heq3 =>
                  rw [skipWs_serialize, roundV v hv f ('}' :: rest) hszv rfl] at heq3
                  exact Option.noConfusion heq3
              · next v2 r4 heq3 =>
                  rw [skipWs_serialize, roundV v hv f ('}' :: rest) hszv rfl] at heq3
                  injection heq3 with h6
                  rw [Prod.mk.injEq] at h6
                  obtain ⟨h7, h8⟩ := h6
                  subst h7
                  subst h8
                  rfl
          · next h5 =>
              exact absurd (skipWs_cons (by decide) _) (fun h6 => h5 _ h6)
  | cons k2 v2 tl2 =>
      have hl : serMembers (.cons k v (.cons k2 v2 tl2)) ++ '}' :: rest =
          k ++ '"' :: (':' :: (serialize v ++
            (',' :: ('"' :: (serMembers (.cons k2 v2 tl2) ++ '}' :: rest))))) := by
        show (k ++ '"' :: ':' :: serialize v ++
            ',' :: '"' :: serMembers (.cons k2 v2 tl2)) ++ '}' :: rest = _
        simp
      have hftl : sizeF (JsonFields.cons k2 v2 tl2) ≤ f := by
        have h2 : sizeF (JsonFields.cons k v (.cons k2 v2 tl2)) =
            1 + sizeV v + sizeF (.cons k2 v2 tl2) := rfl
        have h3 := sizeV_pos v
        omega
      split
      · next heq =>
          rw [hl, scanString_clean k hk] at heq
          exact Option.noConfusion heq
      · next key r1 heq =>
          rw [hl, scanString_clean k hk] at heq
          injection heq with h2
          rw [Prod.mk.injEq] at h2
          obtain ⟨h3, h4⟩ := h2
          subst h3
          subst h4
          split
          · next r3 heq2 =>
              rw [skipWs_cons (by decide)] at heq2
              have h5 : serialize v ++
                  (',' :: ('"' :: (serMembers (.cons k2 v2 tl2) ++ '}' :: rest))) = r3 :=
                List.tail_eq_of_cons_eq heq2
              subst h5
              split
              · next heq3 =>
                  rw [skipWs_serialize, roundV v hv f
                    (',' :: ('"' :: (serMembers (.cons k2 v2 tl2) ++ '}' :: rest)))
                    hszv rfl] at heq3
                  exact Option.noConfusion heq3
              · next v3 r4 heq3 =>
                  rw [skipWs_serialize, roundV v hv f
                    (',' :: ('"' :: (serMembers (.cons k2 v2 tl2) ++ '}' :: rest)))
                    hszv rfl] at heq3
                  injection heq3 with h6
                  rw [Prod.mk.injEq] at h6
                  obtain ⟨h7, h8⟩ := h6
                  subst h7
                  subst h8
                  split
                  · next r6 heq4 =>
                      rw [skipWs_cons (by decide)] at heq4
                      have h9 : '"' :: (serMembers (.cons k2 v2 tl2) ++ '}' :: rest) = r6 :=
                        List.tail_eq_of_cons_eq heq4
                      subst h9
                      split
                      · next r8 heq5 =>
                          rw [skipWs_cons (by decide)] at heq5
                          have h10 : serMembers (.cons k2 v2 tl2) ++ '}' :: rest = r8 :=
                            List.tail_eq_of_cons_eq heq5
                          subst h10
                          rw [roundM (.cons k2 v2 tl2)
                            (fun h11 => JsonFields.noConfusion h11) htl f rest hftl]
                          rfl
                      · next h10 =>
                          exact absurd (skipWs_cons (by decide) _) (fun h11 => h10 _ h11)
                  · next r6 heq4 =>
                      rw [skipWs_cons (by decide)] at heq4
                      exact absurd (List.head_eq_of_cons_eq heq4) (by decide)
                  · next h9 h10 =>
                      exact absurd (skipWs_cons (by decide) _) (fun h11 => h9 _ h11)
          · next h5 =>
              exact absurd (skipWs_cons (by decide) _) (fun h6 => h5 _ h6)

end

theorem pyJsonLoads_serialize (j : Json) (h : cleanVal j = true) :
    pyJsonLoads (serialize j) = some j := by
  unfold pyJsonLoads
  have hs : skipWs (serialize j) = serialize j := by
    have h2 := skipWs_serialize j []
    simpa using h2
  rw [hs]
  have hrt := roundV j h (jsonFuel (serialize j)) [] ?hf rfl
  case hf =>
    have := sizeV_le j
    unfold jsonFuel
    omega
  rw [show serialize j ++ [] = serialize j from List.append_nil _] at hrt
  rw [hrt]
  rfl

theorem braceFree_elim {l : List Char} (h : braceFree l = true) :
    ∀ c ∈ l, ¬(c = '{') ∧ ¬(c = '}') := by
  intro c hc
  unfold braceFree at h
  rw [List.all_eq_true] at h
  have h2 := h c hc
  simp only [Bool.and_eq_true, Bool.not_eq_true'] at h2
  constructor
  · intro he
    rw [show (c == '{') = true by simp [he]] at h2
    exact Bool.noConfusion h2.1
  · intro he
    rw [show (c == '}') = true by simp [he]] at h2
    exact Bool.noConfusion h2.2

theorem braceSliceAux_step_other {c : Char} (h1 : ¬(c = '{')) (h2 : ¬(c = '}'))
    (g : ℕ) (acc : List Char) (n : ℤ) (rest : List Char) :
    braceSliceAux (g + 1) acc n (c :: rest) =
      braceSliceAux g (c :: acc) n rest := by
  simp only [braceSliceAux, if_neg h1, if_neg h2]

theorem braceSliceAux_step_open (g : ℕ) (acc : List Char) (n : ℤ)
    (rest : List Char) :
    braceSliceAux (g + 1) acc n ('{' :: rest) =
      braceSliceAux g ('{' :: acc) (n + 1) rest := by
  simp only [braceSliceAux, if_pos]

theorem braceSliceAux_step_close {n : ℤ} (hn : ¬(n - 1 = 0)) (g : ℕ)
    (acc rest : List Char) :
    braceSliceAux (g + 1) acc n ('}' :: rest) =
      braceSliceAux g ('}' :: acc) (n - 1) rest := by
  simp only [braceSliceAux]
  rw [if_pos True.intro, if_neg hn, if_neg (show ¬('}' = '{') by decide)]

theorem braceSliceAux_free (u : List Char)
    (hu : ∀ c ∈ u, ¬(c = '{') ∧ ¬(c = '}')) :
    ∀ g acc (n : ℤ) rest, braceSliceAux (u.length + g) acc n (u ++ rest) =
      braceSliceAux g (u.reverse ++ acc) n rest := by
  induction u with
  | nil => intro g acc n rest; simp
  | cons c u' ih =>
      intro g acc n rest
      have hc := hu c (by simp)
      rw [show (c :: u').length + g = (u'.length + g) + 1 by simp; omega]
      rw [List.cons_append, braceSliceAux_step_other hc.1 hc.2]
      rw [ih (fun d hd => hu d (by simp [hd])) g (c :: acc) n rest]
      congr 1
      simp

theorem natStr_braceFree (m : ℕ) : ∀ c ∈ natStr m, ¬(c = '{') ∧ ¬(c = '}') := by
  intro c hc
  have hd := natStr_all_digit m c hc
  exact ⟨isDigit_ne hd (by decide), isDigit_ne hd (by decide)⟩

theorem intToChars_braceFree (n : Int) :
    ∀ c ∈ intToChars n, ¬(c = '{') ∧ ¬(c = '}') := by
  intro c hc
  unfold intToChars at hc
  by_cases hneg : n < 0
  · rw [if_pos hneg] at hc
    rcases List.mem_cons.mp hc with h | h
    · subst h; exact ⟨by decide, by decide⟩
    · exact natStr_braceFree _ c h
  · rw [if_neg hneg] at hc
    exact natStr_braceFree _ c hc

theorem cleanStr_braceFree {s : List Char} (hs : cleanStr s = true) :
    ∀ c ∈ s, ¬(c = '{') ∧ ¬(c = '}') := by
  intro c hc
  unfold cleanStr at hs
  rw [List.all_eq_true] at hs
  obtain ⟨_, _, _, h1, h2⟩ := cleanChar_elim (hs c hc)
  exact ⟨h1, h2⟩

mutual

theorem sliceV (j : Json) (hc : cleanVal j = true) :
    ∀ g acc (n : ℤ) rest, 1 ≤ n →
      braceSliceAux ((serialize j).length + g) acc n (serialize j ++ rest)
        = braceSliceAux g ((serialize j).reverse ++ acc) n rest := by
  intro g acc n rest hn
  cases j with
  | null =>
      exact braceSliceAux_free (serialize Json.null)
        (by intro c hc2; fin_cases hc2 <;> exact ⟨by decide, by decide⟩) g acc n rest
  | bool b =>
      cases b with
      | true =>
          exact braceSliceAux_free (serialize (Json.bool true))
            (by intro c hc2; fin_cases hc2 <;> exact ⟨by decide, by decide⟩) g acc n rest
      | false =>
          exact braceSliceAux_free (serialize (Json.bool false))
            (by intro c hc2; fin_cases hc2 <;> exact ⟨by decide, by decide⟩) g acc n rest
  | num m =>
      exact braceSliceAux_free (intToChars m) (intToChars_braceFree m) g acc n rest
  | str s =>
      refine braceSliceAux_free (serialize (Json.str s)) ?_ g acc n rest
      intro c hc2
      have hc3 : c = '"' ∨ c ∈ s := by
        rcases List.mem_cons.mp hc2 with h | h
        · exact Or.inl h
        · rcases List.mem_append.mp h with h2 | h2
          · exact Or.inr h2
          · simp at h2
            exact Or.inl h2
      rcases hc3 with h | h
      · subst h; exact ⟨by decide, by decide⟩
      · exact cleanStr_braceFree hc c h
  | arr es =>
      have hser : serialize (Json.arr es) ++ rest =
          '[' :: (serElems es ++ ']' :: rest) := by
        show ('[' :: (serElems es ++ [']'])) ++ rest = _
        simp
      have hlen : (serialize (Json.arr es)).length + g =
          ((serElems es).length + (1 + g)) + 1 := by
        show ('[' :: (serElems es ++ [']'])).length + g = _
        simp
        omega
      rw [hser, hlen, braceSliceAux_step_other (by decide) (by decide)]
      rw [sliceE es hc (1 + g) ('[' :: acc) n (']' :: rest) hn]
      rw [show 1 + g = g + 1 by omega]
      rw [braceSliceAux_step_other (by decide) (by decide)]
      congr 1
      show (']' :: ((serElems es).reverse ++ '[' :: acc)) = _
      rw [show serialize (Json.arr es) = '[' :: (serElems es ++ [']']) from rfl]
      simp
  | obj fs =>
      have hser : serialize (Json.obj fs) ++ rest =
          '{' :: (serFields fs ++ '}' :: rest) := by
        show ('{' :: (serFields fs ++ ['}'])) ++ rest = _
        simp
      have hlen : (serialize (Json.obj fs)).length + g =
          ((serFields fs).length + (1 + g)) + 1 := by
        show ('{' :: (serFields fs ++ ['}'])).length + g = _
        simp
        omega
      rw [hser, hlen, braceSliceAux_step_open]
      rw [sliceF fs hc (1 + g) ('{' :: acc) (n + 1) ('}' :: rest) (by omega)]
      rw [show 1 + g = g + 1 by omega]
      rw [braceSliceAux_step_close (show ¬((n + 1) - 1 = 0) by omega)]
      rw [show n + 1 - 1 = n by omega]
      congr 1
      show ('}' :: ((serFields fs).reverse ++ '{' :: acc)) = _
      rw [show serialize (Json.obj fs) = '{' :: (serFields fs ++ ['}']) from rfl]
      simp

theorem sliceE (es : JsonList) (hc : cleanList es = true) :
    ∀ g acc (n : ℤ) rest, 1 ≤ n →
      braceSliceAux ((serElems es).length + g) acc n (serElems es ++ rest)
        = braceSliceAux g ((serElems es).reverse ++ acc) n rest := by
  intro g acc n rest hn
  cases es with
  | nil =>
      show braceSliceAux (([] : List Char).length + g) acc n ([] ++ rest) =
        braceSliceAux g (([] : List Char).reverse ++ acc) n rest
      simp
  | cons v tl =>
      have hcs : cleanVal v = true ∧ cleanList tl = true := by
        have h2 : cleanList (.cons v tl) = (cleanVal v && cleanList tl) := rfl
        rw [h2, Bool.and_eq_true] at hc
        exact hc
      cases tl with
      | nil => exact sliceV v hcs.1 g acc n rest hn
      | cons w tl2 =>
          have hser : serElems (.cons v (.cons w tl2)) ++ rest =
              serialize v ++ (',' :: (serElems (.cons w tl2) ++ rest)) := by
            show (serialize v ++ ',' :: serElems (.cons w tl2)) ++ rest = _
            simp
          have hlen : (serElems (.cons v (.cons w tl2))).length + g =
              (serialize v).length + (((serElems (.cons w tl2)).length + g) + 1) := by
            show (serialize v ++ ',' :: serElems (.cons w tl2)).length + g = _
            simp
            omega
          rw [hser, hlen, sliceV v hcs.1 _ acc n _ hn]
          rw [braceSliceAux_step_other (by decide) (by decide)]
          rw [sliceE (.cons w tl2) hcs.2 g _ n rest hn]
          congr 1
          show (serElems (.cons w tl2)).reverse ++
            (',' :: ((serialize v).reverse ++ acc)) = _
          rw [show serElems (.cons v (.cons w tl2)) =
            serialize v ++ ',' :: serElems (.cons w tl2) from rfl]
          simp

theorem sliceF (fs : JsonFields) (hc : cleanFields fs = true) :
    ∀ g acc (n : ℤ) rest, 1 ≤ n →
      braceSliceAux ((serFields fs).length + g) acc n (serFields fs ++ rest)
        = braceSliceAux g ((serFields fs).reverse ++ acc) n rest := by
  intro g acc n rest hn
  cases fs with
  | nil =>
      show braceSliceAux (([] : List Char).length + g) acc n ([] ++ rest) =
        braceSliceAux g (([] : List Char).reverse ++ acc) n rest
      simp
  | cons k v tl =>
      obtain ⟨hk, hfresh, hv, htl⟩ := cleanFields_cons hc
      have hu : ∀ c ∈ '"' :: k ++ ['"', ':'], ¬(c = '{') ∧ ¬(c = '}') := by
        intro c hc2
        rcases List.mem_cons.mp hc2 with h | h
        · subst h; exact ⟨by decide, by decide⟩
        · rcases List.mem_append.mp h with h2 | h2
          · exact cleanStr_braceFree hk c h2
          · fin_cases h2 <;> exact ⟨by decide, by decide⟩
      cases tl with
      | nil =>
          have hser : serFields (.cons k v .nil) ++ rest =
              ('"' :: k ++ ['"', ':']) ++ (serialize v ++ rest) := by
            show ('"' :: k ++ '"' :: ':' :: serialize v) ++ rest = _
            simp
          have hlen : (serFields (.cons k v .nil)).length + g =
              ('"' :: k ++ ['"', ':']).length + ((serialize v).length + g) := by
            show ('"' :: k ++ '"' :: ':' :: serialize v).length + g = _
            simp
            omega
          rw [hser, hlen, braceSliceAux_free _ hu _ acc n _]
          rw [sliceV v hv g _ n rest hn]
          congr 1
          show (serialize v).reverse ++ (('"' :: k ++ ['"', ':']).reverse ++ acc) = _
          rw [show serFields (.cons k v .nil) =
            '"' :: k ++ '"' :: ':' :: serialize v from rfl]
          simp
      | cons k2 v2 tl2 =>
          have hser : serFields (.cons k v (.cons k2 v2 tl2)) ++ rest =
              ('"' :: k ++ ['"', ':']) ++ (serialize v ++
                (',' :: (serFields (.cons k2 v2 tl2) ++ rest))) := by
            show ('"' :: k ++ '"' :: ':' :: serialize v ++
              ',' :: serFields (.cons k2 v2 tl2)) ++ rest = _
            simp
          have hlen : (serFields (.cons k v (.cons k2 v2 tl2))).length + g =
              ('"' :: k ++ ['"', ':']).length + ((serialize v).length +
                (((serFields (.cons k2 v2 tl2)).length + g) + 1)) := by
            show ('"' :: k ++ '"' :: ':' :: serialize v ++
              ',' :: serFields (.cons k2 v2 tl2)).length + g = _
            simp
            omega
          rw [hser, hlen, braceSliceAux_free _ hu _ acc n _]
          rw [sliceV v hv _ _ n _ hn]
          rw [braceSliceAux_step_other (by decide) (by decide)]
          rw [sliceF (.cons k2 v2 tl2) htl g _ n rest hn]
          congr 1
          show (serFields (.cons k2 v2 tl2)).reverse ++
            (',' :: ((serialize v).reverse ++ (('"' :: k ++ ['"', ':']).reverse ++ acc))) = _
          rw [show serFields (.cons k v (.cons k2 v2 tl2)) =
            '"' :: k ++ '"' :: ':' :: serialize v ++
              ',' :: serFields (.cons k2 v2 tl2) from rfl]
          simp

end

theorem braceSlice_serialize_obj (fs : JsonFields) (h : cleanFields fs = true)
    (rest : List Char) :
    braceSlice (serialize (Json.obj fs) ++ rest) =
      some (serialize (Json.obj fs)) := by
  unfold braceSlice
  have hser : serialize (Json.obj fs) ++ rest =
      '{' :: (serFields fs ++ '}' :: rest) := by
    show ('{' :: (serFields fs ++ ['}'])) ++ rest = _
    simp
  rw [hser]
  have hl2 : ('{' :: (serFields fs ++ '}' :: rest)).length + 1 =
      ((serFields fs).length + ((rest.length + 1) + 1)) + 1 := by
    simp
    omega
  rw [hl2, braceSliceAux_step_open]
  rw [sliceF fs h ((rest.length + 1) + 1) ['{'] (0 + 1) ('}' :: rest) (by omega)]
  simp only [braceSliceAux]
  rw [if_pos True.intro, if_pos (show ((0 : ℤ) + 1) - 1 = 0 by omega),
    if_neg (show ¬('}' = '{') by decide)]
  congr 1
  show ('}' :: ((serFields fs).reverse ++ ['{'])).reverse = _
  rw [show serialize (Json.obj fs) = '{' :: (serFields fs ++ ['}']) from rfl]
  simp

theorem fence3_eq : ("```".toList : List Char) = fence3 := by decide

theorem jsonTag_eq : ("json".toList : List Char) = jsonTag := by decide

theorem isReWs_btick : isReWs btick = false := by decide

theorem fenceOpenAt_none_of_head {c : Char} (hc : ¬(c = btick)) (t : List Char) :
    fenceOpenAt (c :: t) = none := by
  unfold fenceOpenAt
  rw [if_neg ?h]
  case h =>
    rw [fence3_eq]
    rw [show fence3 = btick :: btick :: btick :: [] from rfl]
    rw [hasLead_cons_ne (fun he => hc he.symm)]
    simp

theorem fenceMatches_free (P : List Char) (hP : ∀ c ∈ P, ¬(c = btick)) :
    ∀ f t, fenceMatches (P.length + f) (P ++ t) = fenceMatches f t := by
  induction P with
  | nil => intro f t; simp
  | cons c P' ih =>
      intro f t
      rw [show (c :: P').length + f = (P'.length + f) + 1 by simp; omega]
      rw [List.cons_append, fenceMatches.eq_def]
      dsimp only
      rw [fenceOpenAt_none_of_head (hP c (by simp)) (P' ++ t)]
      exact ih (fun d hd => hP d (by simp [hd])) f t

theorem fenceOpenAt_fence (tagged : Bool) (W1 R : List Char)
    (hW1 : ∀ c ∈ W1, isReWs c = true) :
    fenceOpenAt (fence3 ++ ((if tagged then jsonTag else []) ++ (W1 ++ '{' :: R))) =
      some ('{' :: R, R) := by
  have hsk : skipReWs (W1 ++ '{' :: R) = '{' :: R := by
    rw [skipReWs_append W1 _ hW1, skipReWs_cons (by decide)]
  cases tagged with
  | true =>
      show fenceOpenAt (fence3 ++ (jsonTag ++ (W1 ++ '{' :: R))) =
        some ('{' :: R, R)
      unfold fenceOpenAt
      rw [if_pos (by rw [fence3_eq]; exact hasLead_append_self _ _)]
      have hdrop : (fence3 ++ (jsonTag ++ (W1 ++ '{' :: R))).drop 3 =
          jsonTag ++ (W1 ++ '{' :: R) := by
        rw [show fence3 = btick :: btick :: btick :: [] from rfl]
        simp
      rw [hdrop]
      dsimp only
      rw [if_pos (by rw [jsonTag_eq]; exact hasLead_append_self _ _)]
      have hdrop4 : (jsonTag ++ (W1 ++ '{' :: R)).drop 4 = W1 ++ '{' :: R := by
        rw [show jsonTag = 'j' :: 's' :: 'o' :: 'n' :: [] from rfl]
        simp
      rw [hdrop4, hsk]
      rfl
  | false =>
      show fenceOpenAt (fence3 ++ ([] ++ (W1 ++ '{' :: R))) = some ('{' :: R, R)
      rw [List.nil_append]
      unfold fenceOpenAt
      rw [if_pos (by rw [fence3_eq]; exact hasLead_append_self _ _)]
      have hdrop : (fence3 ++ (W1 ++ '{' :: R)).drop 3 = W1 ++ '{' :: R := by
        rw [show fence3 = btick :: btick :: btick :: [] from rfl]
        simp
      rw [hdrop]
      dsimp only
      rw [if_neg ?hj]
      case hj =>
        rw [jsonTag_eq, show jsonTag = 'j' :: 's' :: 'o' :: 'n' :: [] from rfl]
        cases W1 with
        | nil =>
            rw [List.nil_append]
            rw [hasLead_cons_ne (show ('j' : Char) ≠ '{' by decide)]
            simp
        | cons w W' =>
            have hw : isReWs w = true := hW1 w (by simp)
            have hwj : ('j' : Char) ≠ w := by
              intro he
              rw [← he] at hw
              exact absurd hw (by decide)
            rw [List.cons_append]
            rw [hasLead_cons_ne hwj]
            simp
      rw [hsk]
      rfl

theorem closeFenceScan_append (u t : List Char) (h : closeFenceScan t = true) :
    closeFenceScan (u ++ t) = true := by
  induction u with
  | nil => exact h
  | cons c u' ih =>
      rw [List.cons_append]
      show ((c = '}' && hasLead "```".toList (skipReWs (u' ++ t))) ||
        closeFenceScan (u' ++ t)) = true
      rw [ih]
      simp

theorem closeFenceScan_hit (tl : List Char)
    (h : hasLead "```".toList (skipReWs tl) = true) :
    closeFenceScan ('}' :: tl) = true := by
  show (('}' = '}' && hasLead "```".toList (skipReWs tl)) || closeFenceScan tl) = true
  rw [h]
  simp

theorem fencedBlockExists_append (u t : List Char)
    (h : fencedBlockExists t = true) : fencedBlockExists (u ++ t) = true := by
  induction u with
  | nil => exact h
  | cons c u' ih =>
      cases hut : u' ++ t with
      | nil =>
          rw [hut] at ih
          cases t with
          | nil => exact absurd h (by simp [fencedBlockExists])
          | cons a b => simp at hut
      | cons a b =>
          rw [List.cons_append, hut, fencedBlockExists.eq_def]
          dsimp only
          rw [← hut, ih]
          simp

theorem fencedBlockExists_hit (l after R : List Char)
    (hopen : fenceOpenAt l = some (R, after))
    (hclose : closeFenceScan after = true) (c : Char) (t : List Char)
    (hl : l = c :: t) : fencedBlockExists l = true := by
  subst hl
  rw [fencedBlockExists.eq_def]
  dsimp only
  rw [hopen]
  dsimp only
  rw [hclose]
  simp

theorem fenceMatches_hit (g : ℕ) (ab after : List Char) (c : Char)
    (t : List Char) (hopen : fenceOpenAt (c :: t) = some (ab, after)) :
    fenceMatches (g + 1) (c :: t) = ab :: fenceMatches g after := by
  rw [fenceMatches.eq_def]
  dsimp only
  rw [hopen]

theorem tryFenced_head (m : List Char) (ms : List (List Char)) (js : List Char)
    (j : Json) (hbs : braceSlice m = some js) (hload : pyJsonLoads js = some j) :
    tryFenced (m :: ms) = some j := by
  unfold tryFenced
  rw [hbs]
  dsimp only
  rw [hload]

theorem isJsonWs_imp_isPySpace {c : Char} (h : isJsonWs c = true) :
    isPySpace c = true := by
  unfold isJsonWs at h
  simp only [Bool.or_eq_true, decide_eq_true_eq] at h
  rcases h with ((h | h) | h) | h <;> (subst h; decide)

theorem isJsonWs_false_of_pySpace_false {c : Char} (h : isPySpace c = false) :
    isJsonWs c = false := by
  cases hj : isJsonWs c
  · rfl
  · rw [isJsonWs_imp_isPySpace hj] at h
    exact Bool.noConfusion h

theorem proseOk_elim {P : List Char} (h : proseOk P = true) :
    (∀ c ∈ P, ¬(c = btick)) ∧
    (∀ c t, P.dropWhile isPySpace = c :: t → jsonStartChar c = false) := by
  unfold proseOk at h
  rw [Bool.and_eq_true] at h
  obtain ⟨ha, hb⟩ := h
  constructor
  · intro c hc he
    have h2 := (List.all_eq_true.mp ha) c hc
    subst he
    simp at h2
  · intro c t he
    rw [he] at hb
    simpa using hb

theorem rstripBy_append_fence (X Q : List Char) :
    rstripBy isPySpace (X ++ (fence3 ++ Q)) =
      X ++ (fence3 ++ rstripBy isPySpace Q) := by
  have h1 : rstripBy isPySpace ((X ++ fence3) ++ Q) =
      (X ++ fence3) ++ rstripBy isPySpace Q := by
    refine rstripBy_append_getLast isPySpace (X ++ fence3) Q
      (c := btick) ?_ (by decide)
    rw [List.getLast?_append_of_ne_nil X (by decide)]
    decide
  rw [List.append_assoc] at h1
  rw [h1, List.append_assoc]

theorem strat3_none {h : Char} {t : List Char} (hws : isJsonWs h = false)
    (hstart : jsonStartChar h = false) :
    (takeToLastBrace (h :: t)).bind pyJsonLoads = none := by
  cases heq : takeToLastBrace (h :: t) with
  | none => rfl
  | some s =>
      obtain ⟨s2, rfl⟩ := takeToLastBrace_some_head heq
      show pyJsonLoads (h :: s2) = none
      exact pyJsonLoads_none_of_head hws hstart s2

theorem dropWhile_fence (X : List Char) :
    (fence3 ++ X).dropWhile isPySpace = fence3 ++ X := by
  show (btick :: (btick :: btick :: X)).dropWhile isPySpace = _
  rw [List.dropWhile_cons, if_neg (by decide)]
  rfl

theorem tryStrategies_fenced (fs : JsonFields) (tagged : Bool)
    (P W1 W2 Q : List Char)
    (hfs : cleanFields fs = true) (hP : proseOk P = true)
    (hW1 : ∀ c ∈ W1, isReWs c = true) (hW2 : ∀ c ∈ W2, isReWs c = true) :
    tryStrategies (pyStrip (P ++ (fence3 ++ ((if tagged then jsonTag else []) ++
        (W1 ++ (serialize (Json.obj fs) ++ (W2 ++ (fence3 ++ Q)))))))) =
      some (Json.obj fs) := by
  obtain ⟨hPbt, hPhead⟩ := proseOk_elim hP
  have hstrip : pyStrip (P ++ (fence3 ++ ((if tagged then jsonTag else []) ++
      (W1 ++ (serialize (Json.obj fs) ++ (W2 ++ (fence3 ++ Q))))))) =
      P.dropWhile isPySpace ++ (fence3 ++ ((if tagged then jsonTag else []) ++
        (W1 ++ (serialize (Json.obj fs) ++
          (W2 ++ (fence3 ++ rstripBy isPySpace Q)))))) := by
    unfold pyStrip
    rw [dropWhile_append_left isPySpace P _ (dropWhile_fence _)]
    rw [show P.dropWhile isPySpace ++ (fence3 ++ ((if tagged then jsonTag else []) ++
        (W1 ++ (serialize (Json.obj fs) ++ (W2 ++ (fence3 ++ Q)))))) =
        (P.dropWhile isPySpace ++ (fence3 ++ ((if tagged then jsonTag else []) ++
          (W1 ++ (serialize (Json.obj fs) ++ W2))))) ++ (fence3 ++ Q) by simp]
    rw [rstripBy_append_fence]
    simp
  rw [hstrip]
  have hserR : serialize (Json.obj fs) ++
      (W2 ++ (fence3 ++ rstripBy isPySpace Q)) =
      '{' :: (serFields fs ++
        '}' :: (W2 ++ (fence3 ++ rstripBy isPySpace Q))) := by
    show ('{' :: (serFields fs ++ ['}'])) ++ _ = _
    simp
  have hhead : ∃ h t, P.dropWhile isPySpace ++ (fence3 ++
      ((if tagged then jsonTag else []) ++ (W1 ++ (serialize (Json.obj fs) ++
        (W2 ++ (fence3 ++ rstripBy isPySpace Q)))))) = h :: t ∧
      jsonStartChar h = false ∧ isJsonWs h = false := by
    cases hp' : P.dropWhile isPySpace with
    | nil =>
        refine ⟨btick, btick :: btick :: ((if tagged then jsonTag else []) ++
          (W1 ++ (serialize (Json.obj fs) ++
            (W2 ++ (fence3 ++ rstripBy isPySpace Q))))), ?_, by decide, by decide⟩
        rw [List.nil_append]
        rfl
    | cons h t =>
        refine ⟨h, _, by rw [List.cons_append], hPhead h t hp', ?_⟩
        refine isJsonWs_false_of_pySpace_false ?_
        exact head?_dropWhile_not isPySpace P (by rw [hp']; rfl)
  obtain ⟨h, t, htext2, hstart, hws⟩ := hhead
  have hclose : closeFenceScan (serFields fs ++
      '}' :: (W2 ++ (fence3 ++ rstripBy isPySpace Q))) = true := by
    apply closeFenceScan_append
    apply closeFenceScan_hit
    rw [skipReWs_append W2 _ hW2]
    have hsk2 : skipReWs (fence3 ++ rstripBy isPySpace Q) =
        fence3 ++ rstripBy isPySpace Q := skipReWs_cons (by decide) _
    rw [hsk2, fence3_eq]
    exact hasLead_append_self _ _
  have hopen : fenceOpenAt (fence3 ++ ((if tagged then jsonTag else []) ++
      (W1 ++ ('{' :: (serFields fs ++
        '}' :: (W2 ++ (fence3 ++ rstripBy isPySpace Q))))))) =
      some ('{' :: (serFields fs ++
        '}' :: (W2 ++ (fence3 ++ rstripBy isPySpace Q))),
        serFields fs ++ '}' :: (W2 ++ (fence3 ++ rstripBy isPySpace Q))) :=
    fenceOpenAt_fence tagged W1 _ hW1
  have hfbe : fencedBlockExists (P.dropWhile isPySpace ++ (fence3 ++
      ((if tagged then jsonTag else []) ++ (W1 ++ (serialize (Json.obj fs) ++
        (W2 ++ (fence3 ++ rstripBy isPySpace Q))))))) = true := by
    apply fencedBlockExists_append
    rw [hserR]
    exact fencedBlockExists_hit _ _ _ hopen hclose btick _ rfl
  have hbs : braceSlice ('{' :: (serFields fs ++
      '}' :: (W2 ++ (fence3 ++ rstripBy isPySpace Q)))) =
      some (serialize (Json.obj fs)) := by
    rw [← hserR]
    exact braceSlice_serialize_obj fs hfs _
  have hload : pyJsonLoads (serialize (Json.obj fs)) = some (Json.obj fs) :=
    pyJsonLoads_serialize _ hfs
  have hfm : fenceMatches ((P.dropWhile isPySpace ++ (fence3 ++
      ((if tagged then jsonTag else []) ++ (W1 ++ (serialize (Json.obj fs) ++
        (W2 ++ (fence3 ++ rstripBy isPySpace Q))))))).length + 1)
      (P.dropWhile isPySpace ++ (fence3 ++
      ((if tagged then jsonTag else []) ++ (W1 ++ (serialize (Json.obj fs) ++
        (W2 ++ (fence3 ++ rstripBy isPySpace Q))))))) =
      ('{' :: (serFields fs ++
        '}' :: (W2 ++ (fence3 ++ rstripBy isPySpace Q)))) ::
        fenceMatches (fence3 ++ ((if tagged then jsonTag else []) ++
          (W1 ++ '{' :: (serFields fs ++
            '}' :: (W2 ++ (fence3 ++ rstripBy isPySpace Q)))))).length
          (serFields fs ++ '}' :: (W2 ++ (fence3 ++ rstripBy isPySpace Q))) := by
    rw [show (P.dropWhile isPySpace ++ (fence3 ++
        ((if tagged then jsonTag else []) ++ (W1 ++ (serialize (Json.obj fs) ++
          (W2 ++ (fence3 ++ rstripBy isPySpace Q))))))).length + 1 =
        (P.dropWhile isPySpace).length + ((fence3 ++
        ((if tagged then jsonTag else []) ++ (W1 ++ (serialize (Json.obj fs) ++
          (W2 ++ (fence3 ++ rstripBy isPySpace Q)))))).length + 1) by
      simp
      omega]
    rw [fenceMatches_free (P.dropWhile isPySpace)
      (fun c hc => hPbt c ((List.dropWhile_sublist isPySpace).subset hc)) _ _]
    conv_lhs => rw [hserR]
    exact fenceMatches_hit _ _ _ btick _ hopen
  unfold tryStrategies
  rw [show pyJsonLoads (P.dropWhile isPySpace ++ (fence3 ++
      ((if tagged then jsonTag else []) ++ (W1 ++ (serialize (Json.obj fs) ++
        (W2 ++ (fence3 ++ rstripBy isPySpace Q))))))) = none from by
    rw [htext2]
    exact pyJsonLoads_none_of_head hws hstart t]
  dsimp only
  rw [show pyRawDecode (P.dropWhile isPySpace ++ (fence3 ++
      ((if tagged then jsonTag else []) ++ (W1 ++ (serialize (Json.obj fs) ++
        (W2 ++ (fence3 ++ rstripBy isPySpace Q))))))) = none from by
    rw [htext2]
    exact pyRawDecode_none_of_head hstart t]
  dsimp only
  rw [show (takeToLastBrace (P.dropWhile isPySpace ++ (fence3 ++
      ((if tagged then jsonTag else []) ++ (W1 ++ (serialize (Json.obj fs) ++
        (W2 ++ (fence3 ++ rstripBy isPySpace Q)))))))).bind pyJsonLoads =
      none from by
    rw [htext2]
    exact strat3_none hws hstart]
  dsimp only
  rw [if_pos hfbe]
  rw [hfm]
  rw [tryFenced_head _ _ _ _ hbs hload]

/-! ## Claim theorems: extraction failure diagnostics (C5) -/

/-- C5: when every salvage strategy fails, `_extract_json` returns an
explicit error (never a value and never a silent success), and the error
message carries the first 500 characters of the original input text; the
converse also holds — every error produced by `_extract_json` arises this
way and has exactly that diagnostic message. -/
theorem extract_json_error_diagnostic (t : List Char) :
    (tryStrategies (pyStrip t) = none →
      _extract_json t = .error (extractErrMsg ++ t.take 500)) ∧
    (∀ e, _extract_json t = .error e →
      tryStrategies (pyStrip t) = none ∧ e = extractErrMsg ++ t.take 500) := by
  unfold _extract_json
  cases h : tryStrategies (pyStrip t) with
  | none =>
      refine ⟨fun _ => rfl, fun e he => ⟨rfl, ?_⟩⟩
      injection he with h2
      exact h2.symm
  | some j =>
      constructor
      · intro hn
        exact Option.noConfusion hn
      · intro e he
        exact Except.noConfusion he

theorem extract_json_error_diagnostic_witness :
    _extract_json ('x' :: 'y' :: 'z' :: []) =
      .error (extractErrMsg ++ ('x' :: 'y' :: 'z' :: []).take 500) :=
  (extract_json_error_diagnostic ('x' :: 'y' :: 'z' :: [])).1 (by rfl)

/-! ## Claim theorems: fenced-block extraction (C4) -/

/-- C4 counterexample: the claim fails for the valid JSON object
`\x7b"a": "\x7d"\x7d` — a `'\x7d'` inside a string value — embedded in a
`json`-tagged fenced block between prose lines.  The brace matching of the
fenced-block strategy cuts the candidate at the `'\x7d'` inside the string,
no later strategy recovers, and `_extract_json` raises instead of
returning the object. -/
theorem extract_json_fenced_counterexample :
    _extract_json ("Here:\n".toList ++ fence3 ++ jsonTag ++ '\n' ::
        serialize (Json.obj (.cons ['a'] (.str ['}']) .nil)) ++ '\n' ::
        fence3 ++ "\nbye".toList) ≠
      .ok (Json.obj (.cons ['a'] (.str ['}']) .nil)) := by
  intro h
  have hev : _extract_json ("Here:\n".toList ++ fence3 ++ jsonTag ++ '\n' ::
      serialize (Json.obj (.cons ['a'] (.str ['}']) .nil)) ++ '\n' ::
      fence3 ++ "\nbye".toList) =
      .error (extractErrMsg ++ ("Here:\n".toList ++ fence3 ++ jsonTag ++ '\n' ::
        serialize (Json.obj (.cons ['a'] (.str ['}']) .nil)) ++ '\n' ::
        fence3 ++ "\nbye".toList).take 500) := by rfl
  rw [hev] at h
  exact Except.noConfusion h

/-- C4 (amended): for every JSON object whose strings are free of quotes,
backslashes, braces and control characters, whose numbers are integers and
whose keys are distinct at every level ("clean" values), embedding its
compact serialization in a triple-backtick fenced code block — optionally
tagged `json`, with whitespace around the object inside the fence — after
prose that contains no backtick and whose first non-whitespace character
cannot begin a JSON value, and before an arbitrary suffix, makes
`_extract_json` return exactly that object: direct parsing, raw decoding
and last-brace truncation all fail on the prose head, and the fenced-block
strategy brace-matches precisely the serialized object.  (The original
claim, quantified over all valid JSON objects, is refuted by
`extract_json_fenced_counterexample`: a `\x7d` inside a string value
derails the brace matching.) -/
theorem extract_json_fenced_clean (fs : JsonFields) (tagged : Bool)
    (P W1 W2 Q : List Char)
    (hfs : cleanFields fs = true) (hP : proseOk P = true)
    (hW1 : ∀ c ∈ W1, isReWs c = true) (hW2 : ∀ c ∈ W2, isReWs c = true) :
    _extract_json (P ++ (fence3 ++ ((if tagged then jsonTag else []) ++
        (W1 ++ (serialize (Json.obj fs) ++ (W2 ++ (fence3 ++ Q))))))) =
      .ok (Json.obj fs) := by
  unfold _extract_json
  rw [tryStrategies_fenced fs tagged P W1 W2 Q hfs hP hW1 hW2]

theorem extract_json_fenced_clean_witness :
    _extract_json ("Intro: ".toList ++ (fence3 ++ (jsonTag ++
        (['\n'] ++ (serialize (Json.obj (.cons ['a'] (.num 1) .nil)) ++
          (['\n'] ++ (fence3 ++ "\nbye".toList))))))) =
      .ok (Json.obj (.cons ['a'] (.num 1) .nil)) :=
  extract_json_fenced_clean (.cons ['a'] (.num 1) .nil) true "Intro: ".toList
    ['\n'] ['\n'] "\nbye".toList (by decide) (by decide) (by decide) (by decide)

end HdcDigest
